import Mathlib

/-!
Verification development for the knowledge-indexing core
(`modules/path_policies.py` and `modules/data_indexer.py`).

Modelling conventions, shared by every definition below:

* A filesystem path is modelled by its `pathlib.Path.parts` tuple, i.e. a
  `List String`; an absolute POSIX path has `"/"` as its first part, exactly
  as in Python (`Path("/etc/passwd").parts == ("/", "etc", "passwd")`).
* `_clean` (expanduser + resolve) depends on the live filesystem, so the
  model works with already-canonical paths and `_clean` is the identity.
  Containment (`Path.relative_to`) on canonical paths is exactly "the
  parent's parts are a prefix of the child's parts".
* Python floats (mtimes, scores, size limits) are modelled by `ℚ`; none of
  the properties proved here sits at a binary-rounding boundary.
* SQLite tables are modelled by lists of rows; `INSERT OR REPLACE` with an
  implicit rowid allocates `max existing rowid + 1` (SQLite's behaviour for
  a non-AUTOINCREMENT table).
-/

/-- A canonical filesystem path, as its `Path.parts` list. -/
abbrev SPath := List String

namespace PathPolicies

/-- `is_under(path, parent)`: `path.relative_to(parent)` succeeds, i.e.
the parent's parts are a prefix of the path's parts (equality included).
From `path_policies.is_under`; `_clean` is the identity on canonical paths. -/
def is_under (path parent : SPath) : Bool :=
  decide (parent <+: path)

/-- `str(Path(...))` rendering of a parts list: `("/", "etc")` renders to
`"/etc"`, relative paths join their parts with `"/"`. -/
def render (p : SPath) : String :=
  match p with
  | "/" :: rest => "/" ++ String.intercalate "/" rest
  | parts => String.intercalate "/" parts

/-- `is_allowed(path, allowed_roots, excluded)` from `path_policies.py`
lines 113-121: scan `excluded` first and deny on the first entry the path
is under; otherwise allow if under (or equal to) some allowed root;
otherwise deny as outside the allowed roots. -/
def is_allowed (path : SPath) (allowed_roots excluded : List SPath) :
    Bool × Option String :=
  match excluded.find? (fun entry => is_under path entry) with
  | some entry => (false, some ("Excluded path: " ++ render entry))
  | none =>
      if allowed_roots.any (fun root => is_under path root || decide (path = root)) then
        (true, none)
      else
        (false, some "Outside allowed roots")

/-- The case-insensitive de-duplication key of `normalise_paths`
(`path.as_posix().lower()`), modelled part-wise. -/
def lowerKey (p : SPath) : SPath :=
  p.map (fun s => s.map Char.toLower)

/-- `normalise_paths`: drop entries whose lowercase key was already seen,
preserving first-seen order. (`None` entries and `_clean` resolution are
outside the canonical-path model.) -/
def normAux : List SPath → List SPath → List SPath
  | [], _ => []
  | p :: rest, seen =>
      if lowerKey p ∈ seen then normAux rest seen
      else p :: normAux rest (lowerKey p :: seen)

def normalise_paths (values : List SPath) : List SPath :=
  normAux values []

/-- `_posix_exclusions()` on Linux (`sys.platform ≠ "darwin"`), the
platform this model fixes. -/
def default_excluded_paths : List SPath :=
  [["/", "bin"], ["/", "boot"], ["/", "dev"], ["/", "etc"], ["/", "lib"],
   ["/", "proc"], ["/", "root"], ["/", "run"], ["/", "sbin"], ["/", "sys"],
   ["/", "tmp"], ["/", "usr"]]

end PathPolicies

namespace DataIndexer

open PathPolicies

/-- `DataIndexer.__init__` line 98: the effective excluded set is the
normalised user list, or the platform defaults only when that list is
empty (`normalise_paths(excluded_paths) or default_excluded_paths()`). -/
def initExcluded (user : List SPath) : List SPath :=
  match normalise_paths user with
  | [] => default_excluded_paths
  | l => l

/-- `DataIndexer.update_policy` lines 122-126: defaults plus the user
extras that are not already among the defaults. -/
def updateExcluded (user : List SPath) : List SPath :=
  default_excluded_paths ++
    (normalise_paths user).filter (fun p => decide (p ∉ default_excluded_paths))

/-- `max(1.0, float(max_file_size_mb))` — the size clamp applied both in
`__init__` (line 99) and in `update_policy` (line 128). -/
def clamp_mb (x : ℚ) : ℚ := max 1 x

/-- `int(self.max_file_size_mb * 1024 * 1024)` (lines 100 and 129); the
clamped value is ≥ 1 so `int` truncation is `Int.floor`. -/
def max_file_size_bytes (mb : ℚ) : ℕ :=
  (Int.floor (mb * 1048576)).toNat

end DataIndexer

/-! ## C1: explicit deny wins over allow -/

/-- **C1.** For every path, allowed-root list and excluded list: if the path
equals or is nested under some excluded entry, `is_allowed` returns `false`
with an excluded-path reason — even if the path is also under an allowed
root. -/
theorem c1_excluded_deny_wins (path : SPath) (roots excluded : List SPath)
    (h : ∃ e ∈ excluded, PathPolicies.is_under path e = true) :
    (PathPolicies.is_allowed path roots excluded).1 = false ∧
      ∃ e ∈ excluded, PathPolicies.is_under path e = true ∧
        (PathPolicies.is_allowed path roots excluded).2 =
          some ("Excluded path: " ++ PathPolicies.render e) := by
  obtain ⟨e, he, hu⟩ := h
  have hfind : (excluded.find? (fun entry => PathPolicies.is_under path entry)).isSome := by
    rw [List.find?_isSome]
    exact ⟨e, he, hu⟩
  obtain ⟨e', hfind'⟩ := Option.isSome_iff_exists.mp hfind
  have he' : e' ∈ excluded := List.mem_of_find?_eq_some hfind'
  have hu' : PathPolicies.is_under path e' = true := List.find?_some hfind'
  refine ⟨?_, e', he', hu', ?_⟩ <;>
    simp [PathPolicies.is_allowed, hfind']

/-- Witness for C1: `/etc/passwd` with `allowed_roots = ["/"]` and
`excluded = ["/etc"]` is denied with the excluded-path reason. -/
theorem c1_excluded_deny_wins_witness :
    (∃ e ∈ [(["/", "etc"] : SPath)],
        PathPolicies.is_under ["/", "etc", "passwd"] e = true) ∧
      (PathPolicies.is_allowed ["/", "etc", "passwd"] [["/"]] [["/", "etc"]]).1 = false ∧
      ∃ e ∈ [(["/", "etc"] : SPath)],
        PathPolicies.is_under ["/", "etc", "passwd"] e = true ∧
          (PathPolicies.is_allowed ["/", "etc", "passwd"] [["/"]] [["/", "etc"]]).2 =
            some ("Excluded path: " ++ PathPolicies.render e) :=
  ⟨by decide,
   c1_excluded_deny_wins ["/", "etc", "passwd"] [["/"]] [["/", "etc"]] (by decide)⟩

/-! ## C3: defaults in the excluded set -/

/-- **C3 counterexample.** Constructing the indexer with the user exclusion
list `["/foo"]` yields an excluded set that is exactly `[/foo]`: it does not
contain the platform default `/etc`, so construction does not preserve the
immutable default subset. -/
theorem c3_counterexample :
    DataIndexer.initExcluded [["/", "foo"]] = [["/", "foo"]] ∧
      (["/", "etc"] : SPath) ∈ PathPolicies.default_excluded_paths ∧
      (["/", "etc"] : SPath) ∉ DataIndexer.initExcluded [["/", "foo"]] := by
  decide

/-- **C3 (amended).** `update_policy` merges the platform defaults back in:
after any `update_policy` call that supplies an excluded-path list, the
effective excluded set contains every platform default.  At construction,
however, a non-empty user list replaces the defaults entirely (they are only
a fallback for an empty list). -/
theorem c3_update_policy_keeps_defaults (user : List SPath) (d : SPath)
    (hd : d ∈ PathPolicies.default_excluded_paths) :
    d ∈ DataIndexer.updateExcluded user := by
  unfold DataIndexer.updateExcluded
  exact List.mem_append_left _ hd

/-- Witness for the amended C3: after `update_policy` with user exclusions
`["/foo"]`, the default `/etc` is in the effective excluded set. -/
theorem c3_update_policy_keeps_defaults_witness :
    (["/", "etc"] : SPath) ∈ PathPolicies.default_excluded_paths ∧
      (["/", "etc"] : SPath) ∈ DataIndexer.updateExcluded [["/", "foo"]] :=
  ⟨by decide, c3_update_policy_keeps_defaults [["/", "foo"]] ["/", "etc"] (by decide)⟩

/-! ## C8: the size clamp -/

/-- **C8 counterexample.** The code only clamps from below
(`max(1.0, float(max_file_size_mb))`): supplying `4096` MB stores `4096` MB,
above the claimed `2048` MB ceiling. -/
theorem c8_counterexample :
    DataIndexer.clamp_mb 4096 = 4096 ∧ ¬ (DataIndexer.clamp_mb 4096 ≤ 2048) := by
  constructor
  · norm_num [DataIndexer.clamp_mb]
  · norm_num [DataIndexer.clamp_mb]

/-- **C8 (amended).** Both at construction and via `update_policy` the
effective `max_file_size_mb` is the supplied float clamped from below at
1 MB; there is no upper clamp, so a value above 2048 MB is kept as-is.  The
stored byte ceiling therefore never falls below 1 MB but may exceed
2048 MB. -/
theorem c8_clamp_lower_only (x : ℚ) :
    1 ≤ DataIndexer.clamp_mb x ∧
      1048576 ≤ DataIndexer.max_file_size_bytes (DataIndexer.clamp_mb x) ∧
      (2048 < x → DataIndexer.clamp_mb x = x) := by
  refine ⟨le_max_left 1 x, ?_, fun h => max_eq_right (by linarith)⟩
  unfold DataIndexer.max_file_size_bytes
  have h1 : (1 : ℚ) ≤ DataIndexer.clamp_mb x := le_max_left 1 x
  have hfloor : (1048576 : ℤ) ≤ Int.floor (DataIndexer.clamp_mb x * 1048576) := by
    have : (1048576 : ℚ) ≤ DataIndexer.clamp_mb x * 1048576 := by nlinarith
    exact_mod_cast Int.le_floor.mpr (by exact_mod_cast this)
  omega

/-- Witness for the amended C8 at the concrete input `4096`. -/
theorem c8_clamp_lower_only_witness :
    1 ≤ DataIndexer.clamp_mb 4096 ∧
      1048576 ≤ DataIndexer.max_file_size_bytes (DataIndexer.clamp_mb 4096) ∧
      (2048 < (4096 : ℚ) → DataIndexer.clamp_mb 4096 = 4096) :=
  c8_clamp_lower_only 4096

/-! ## IndexStore model (files + file_content tables, both backends) -/

namespace IndexStore

/-- The `(mtime, size)` pair stored in the `files` table. -/
structure FStat where
  mtime : ℚ
  size : ℕ
deriving DecidableEq

/-- A row of the `files` table (`id INTEGER PRIMARY KEY, path TEXT UNIQUE,
mtime, size`); `indexed_at` carries no information the claims use. -/
structure FilesRow where
  id : ℕ
  path : String
  stat : FStat
deriving DecidableEq

/-- A row of the fts5 `file_content` virtual table: rowid, the UNINDEXED
`path` column, and the content. -/
structure FtsRow where
  rowid : ℕ
  path : String
  content : String
deriving DecidableEq

/-- The full-text-backend database. -/
structure FtsDb where
  files : List FilesRow
  content : List FtsRow
deriving DecidableEq

/-- A row of the fallback `file_content` table
(`file_id INTEGER PRIMARY KEY, content TEXT`). -/
structure FbRow where
  file_id : ℕ
  content : String
deriving DecidableEq

/-- The fallback-backend database. -/
structure FbDb where
  files : List FilesRow
  content : List FbRow
deriving DecidableEq

/-- SQLite rowid allocation for an insert without an explicit id:
one more than the largest existing id. -/
def freshId (rows : List FilesRow) : ℕ :=
  rows.foldr (fun r m => max r.id m) 0 + 1

/-- `_upsert_file` on the fts backend: `INSERT OR REPLACE INTO files`
(drop the row with the same path, insert with a fresh id), then
`INSERT OR REPLACE INTO file_content(rowid, path, content)` keyed on the
new id. -/
def upsertF (db : FtsDb) (p : String) (st : FStat) (c : String) : FtsDb :=
  let remaining := db.files.filter (fun r => decide (r.path ≠ p))
  let fid := freshId remaining
  { files := remaining ++ [⟨fid, p, st⟩],
    content := db.content.filter (fun r => decide (r.rowid ≠ fid)) ++ [⟨fid, p, c⟩] }

/-- `_delete_file` on the fts backend: delete from `files` by path, delete
from `file_content` by path. -/
def deleteF (db : FtsDb) (p : String) : FtsDb :=
  { files := db.files.filter (fun r => decide (r.path ≠ p)),
    content := db.content.filter (fun r => decide (r.path ≠ p)) }

/-- `_upsert_file` on the fallback backend: replace the `files` row, look up
the new id, and `INSERT OR REPLACE INTO file_content(file_id, content)`. -/
def upsertB (db : FbDb) (p : String) (st : FStat) (c : String) : FbDb :=
  let remaining := db.files.filter (fun r => decide (r.path ≠ p))
  let fid := freshId remaining
  { files := remaining ++ [⟨fid, p, st⟩],
    content := db.content.filter (fun r => decide (r.file_id ≠ fid)) ++ [⟨fid, c⟩] }

/-- `_delete_file` on the fallback backend: delete the `files` row by path,
then purge every `file_content` row whose `file_id` no longer appears in
`files`. -/
def deleteB (db : FbDb) (p : String) : FbDb :=
  let files' := db.files.filter (fun r => decide (r.path ≠ p))
  { files := files',
    content := db.content.filter (fun r => decide (r.file_id ∈ files'.map FilesRow.id)) }

/-- A content row "for path p" exists (fts backend: by its path column). -/
def hasContentF (db : FtsDb) (p : String) : Prop :=
  ∃ c ∈ db.content, c.path = p

/-- A content row "for path p" exists (fallback backend: a content row
linked by `file_id` to the files row of `p`). -/
def hasContentB (db : FbDb) (p : String) : Prop :=
  ∃ c ∈ db.content, ∃ f ∈ db.files, c.file_id = f.id ∧ f.path = p

/-- A `files` row for path p exists. -/
def hasFileF (db : FtsDb) (p : String) : Prop :=
  ∃ f ∈ db.files, f.path = p

def hasFileB (db : FbDb) (p : String) : Prop :=
  ∃ f ∈ db.files, f.path = p

/-- Well-formedness of the fts-backend store: unique paths, unique ids,
unique content rowids, every files row has its linked content row, and
every content row's path (orphans included) still names an indexed file. -/
def InvF (db : FtsDb) : Prop :=
  (db.files.map FilesRow.path).Nodup ∧
  (db.files.map FilesRow.id).Nodup ∧
  (db.content.map FtsRow.rowid).Nodup ∧
  (∀ f ∈ db.files, ∃ c ∈ db.content, c.rowid = f.id ∧ c.path = f.path) ∧
  (∀ c ∈ db.content, ∃ f ∈ db.files, f.path = c.path)

/-- Well-formedness of the fallback-backend store. -/
def InvB (db : FbDb) : Prop :=
  (db.files.map FilesRow.path).Nodup ∧
  (db.files.map FilesRow.id).Nodup ∧
  (db.content.map FbRow.file_id).Nodup ∧
  (∀ f ∈ db.files, ∃ c ∈ db.content, c.file_id = f.id)

instance (db : FtsDb) : Decidable (InvF db) := by unfold InvF; infer_instance
instance (db : FbDb) : Decidable (InvB db) := by unfold InvB; infer_instance

theorem lt_freshId : ∀ (rows : List FilesRow), ∀ r ∈ rows, r.id < freshId rows := by
  intro rows
  induction rows with
  | nil => intro r hr; cases hr
  | cons x xs ih =>
    intro r hr
    have hx : freshId (x :: xs) = max x.id (xs.foldr (fun r m => max r.id m) 0) + 1 := rfl
    rcases List.mem_cons.mp hr with h | h
    · subst h; omega
    · have := ih r h
      unfold freshId at this
      omega

theorem invF_upsert (db : FtsDb) (p : String) (st : FStat) (c : String)
    (h : InvF db) : InvF (upsertF db p st c) := by
  obtain ⟨hp, hi, hcr, hlink, horph⟩ := h
  simp only [upsertF]
  set remaining := db.files.filter (fun r => decide (r.path ≠ p)) with hrem
  set fid := freshId remaining with hfid
  have hremsub : remaining.Sublist db.files := List.filter_sublist _
  have hrem_mem : ∀ r ∈ remaining, r ∈ db.files ∧ r.path ≠ p := by
    intro r hr
    have h2 := List.mem_filter.mp hr
    exact ⟨h2.1, by simpa using h2.2⟩
  have hfid_gt : ∀ r ∈ remaining, r.id < fid := fun r hr => lt_freshId remaining r hr
  refine ⟨?_, ?_, ?_, ?_, ?_⟩
  · rw [List.map_append, List.nodup_append]
    refine ⟨(hremsub.map FilesRow.path).nodup hp, List.nodup_singleton _, ?_⟩
    intro x hx hx'
    simp only [List.map_cons, List.map_nil, List.mem_singleton] at hx'
    obtain ⟨r, hr, hrp⟩ := List.mem_map.mp hx
    exact (hrem_mem r hr).2 (by rw [hrp, hx'])
  · rw [List.map_append, List.nodup_append]
    refine ⟨(hremsub.map FilesRow.id).nodup hi, List.nodup_singleton _, ?_⟩
    intro x hx hx'
    simp only [List.map_cons, List.map_nil, List.mem_singleton] at hx'
    obtain ⟨r, hr, hrp⟩ := List.mem_map.mp hx
    have := hfid_gt r hr
    omega
  · rw [List.map_append, List.nodup_append]
    refine ⟨((List.filter_sublist _).map FtsRow.rowid).nodup hcr, List.nodup_singleton _, ?_⟩
    intro x hx hx'
    simp only [List.map_cons, List.map_nil, List.mem_singleton] at hx'
    obtain ⟨r, hr, hrp⟩ := List.mem_map.mp hx
    have h2 := List.mem_filter.mp hr
    have : r.rowid ≠ fid := by simpa using h2.2
    exact this (by rw [hrp, hx'])
  · intro f hf
    rcases List.mem_append.mp hf with hf | hf
    · obtain ⟨c0, hc0, hc0id, hc0p⟩ := hlink f (hrem_mem f hf).1
      refine ⟨c0, List.mem_append_left _ ?_, hc0id, hc0p⟩
      refine List.mem_filter.mpr ⟨hc0, ?_⟩
      have := hfid_gt f hf
      simp only [decide_eq_true_eq]
      omega
    · simp only [List.mem_singleton] at hf
      subst hf
      exact ⟨⟨fid, p, c⟩, List.mem_append_right _ (List.mem_singleton.mpr rfl), rfl, rfl⟩
  · intro c' hc'
    rcases List.mem_append.mp hc' with hc' | hc'
    · have hc'mem : c' ∈ db.content := (List.mem_filter.mp hc').1
      obtain ⟨f0, hf0, hf0p⟩ := horph c' hc'mem
      by_cases hcase : f0.path = p
      · exact ⟨⟨fid, p, st⟩, List.mem_append_right _ (List.mem_singleton.mpr rfl),
          by rw [← hf0p, hcase]⟩
      · refine ⟨f0, List.mem_append_left _ ?_, hf0p⟩
        exact List.mem_filter.mpr ⟨hf0, by simpa using hcase⟩
    · simp only [List.mem_singleton] at hc'
      subst hc'
      exact ⟨⟨fid, p, st⟩, List.mem_append_right _ (List.mem_singleton.mpr rfl), rfl⟩

theorem invF_delete (db : FtsDb) (p : String) (h : InvF db) :
    InvF (deleteF db p) := by
  obtain ⟨hp, hi, hcr, hlink, horph⟩ := h
  simp only [deleteF]
  refine ⟨((List.filter_sublist _).map FilesRow.path).nodup hp,
          ((List.filter_sublist _).map FilesRow.id).nodup hi,
          ((List.filter_sublist _).map FtsRow.rowid).nodup hcr, ?_, ?_⟩
  · intro f hf
    have h2 := List.mem_filter.mp hf
    obtain ⟨c0, hc0, hc0id, hc0p⟩ := hlink f h2.1
    refine ⟨c0, List.mem_filter.mpr ⟨hc0, ?_⟩, hc0id, hc0p⟩
    simp only [decide_eq_true_eq, hc0p]
    simpa using h2.2
  · intro c' hc'
    have h2 := List.mem_filter.mp hc'
    obtain ⟨f0, hf0, hf0p⟩ := horph c' h2.1
    refine ⟨f0, List.mem_filter.mpr ⟨hf0, ?_⟩, hf0p⟩
    simp only [decide_eq_true_eq, hf0p]
    simpa using h2.2

theorem invB_upsert (db : FbDb) (p : String) (st : FStat) (c : String)
    (h : InvB db) : InvB (upsertB db p st c) := by
  obtain ⟨hp, hi, hcr, hlink⟩ := h
  simp only [upsertB]
  set remaining := db.files.filter (fun r => decide (r.path ≠ p)) with hrem
  set fid := freshId remaining with hfid
  have hremsub : remaining.Sublist db.files := List.filter_sublist _
  have hrem_mem : ∀ r ∈ remaining, r ∈ db.files ∧ r.path ≠ p := by
    intro r hr
    have h2 := List.mem_filter.mp hr
    exact ⟨h2.1, by simpa using h2.2⟩
  have hfid_gt : ∀ r ∈ remaining, r.id < fid := fun r hr => lt_freshId remaining r hr
  refine ⟨?_, ?_, ?_, ?_⟩
  · rw [List.map_append, List.nodup_append]
    refine ⟨(hremsub.map FilesRow.path).nodup hp, List.nodup_singleton _, ?_⟩
    intro x hx hx'
    simp only [List.map_cons, List.map_nil, List.mem_singleton] at hx'
    obtain ⟨r, hr, hrp⟩ := List.mem_map.mp hx
    exact (hrem_mem r hr).2 (by rw [hrp, hx'])
  · rw [List.map_append, List.nodup_append]
    refine ⟨(hremsub.map FilesRow.id).nodup hi, List.nodup_singleton _, ?_⟩
    intro x hx hx'
    simp only [List.map_cons, List.map_nil, List.mem_singleton] at hx'
    obtain ⟨r, hr, hrp⟩ := List.mem_map.mp hx
    have := hfid_gt r hr
    omega
  · rw [List.map_append, List.nodup_append]
    refine ⟨((List.filter_sublist _).map FbRow.file_id).nodup hcr, List.nodup_singleton _, ?_⟩
    intro x hx hx'
    simp only [List.map_cons, List.map_nil, List.mem_singleton] at hx'
    obtain ⟨r, hr, hrp⟩ := List.mem_map.mp hx
    have h2 := List.mem_filter.mp hr
    have : r.file_id ≠ fid := by simpa using h2.2
    exact this (by rw [hrp, hx'])
  · intro f hf
    rcases List.mem_append.mp hf with hf | hf
    · obtain ⟨c0, hc0, hc0id⟩ := hlink f (hrem_mem f hf).1
      refine ⟨c0, List.mem_append_left _ ?_, hc0id⟩
      refine List.mem_filter.mpr ⟨hc0, ?_⟩
      have := hfid_gt f hf
      simp only [decide_eq_true_eq]
      omega
    · simp only [List.mem_singleton] at hf
      subst hf
      exact ⟨⟨fid, c⟩, List.mem_append_right _ (List.mem_singleton.mpr rfl), rfl⟩

theorem invB_delete (db : FbDb) (p : String) (h : InvB db) :
    InvB (deleteB db p) := by
  obtain ⟨hp, hi, hcr, hlink⟩ := h
  simp only [deleteB]
  refine ⟨((List.filter_sublist _).map FilesRow.path).nodup hp,
          ((List.filter_sublist _).map FilesRow.id).nodup hi,
          ((List.filter_sublist _).map FbRow.file_id).nodup hcr, ?_⟩
  intro f hf
  obtain ⟨c0, hc0, hc0id⟩ := hlink f (List.mem_filter.mp hf).1
  refine ⟨c0, List.mem_filter.mpr ⟨hc0, ?_⟩, hc0id⟩
  simp only [decide_eq_true_eq, hc0id]
  exact List.mem_map.mpr ⟨f, hf, rfl⟩

theorem iffF_of_inv (db : FtsDb) (h : InvF db) (r : String) :
    hasContentF db r ↔ hasFileF db r := by
  obtain ⟨_, _, _, hlink, horph⟩ := h
  constructor
  · rintro ⟨c0, hc0, hc0p⟩
    obtain ⟨f0, hf0, hf0p⟩ := horph c0 hc0
    exact ⟨f0, hf0, by rw [hf0p, hc0p]⟩
  · rintro ⟨f0, hf0, hf0p⟩
    obtain ⟨c0, hc0, _, hc0p⟩ := hlink f0 hf0
    exact ⟨c0, hc0, by rw [hc0p, hf0p]⟩

theorem iffB_of_inv (db : FbDb) (h : InvB db) (r : String) :
    hasContentB db r ↔ hasFileB db r := by
  obtain ⟨_, _, _, hlink⟩ := h
  constructor
  · rintro ⟨c0, _, f0, hf0, _, hf0p⟩
    exact ⟨f0, hf0, hf0p⟩
  · rintro ⟨f0, hf0, hf0p⟩
    obtain ⟨c0, hc0, hc0id⟩ := hlink f0 hf0
    exact ⟨c0, hc0, f0, hf0, hc0id, hf0p⟩

end IndexStore

/-! ## C5: content row iff files row, preserved by upsert and delete -/

/-- **C5.** On both backends, if the store is well-formed then (a) a content
row for path `r` exists iff a files row for path `r` exists, (b) every
upsert and every delete preserves well-formedness (and with it the iff),
(c) upsert leaves a files row for `p` with the new stat together with a
linked content row holding the new content, and (d) delete removes both the
files row and every content row for the deleted path (cascade). -/
theorem c5_store_content_iff_files (dbF : IndexStore.FtsDb) (dbB : IndexStore.FbDb)
    (p q : String) (st : IndexStore.FStat) (c : String) :
    (IndexStore.InvF dbF →
       (∀ r, IndexStore.hasContentF dbF r ↔ IndexStore.hasFileF dbF r) ∧
       IndexStore.InvF (IndexStore.upsertF dbF p st c) ∧
       IndexStore.InvF (IndexStore.deleteF dbF q) ∧
       (∃ f ∈ (IndexStore.upsertF dbF p st c).files, f.path = p ∧ f.stat = st ∧
          ∃ cr ∈ (IndexStore.upsertF dbF p st c).content,
            cr.rowid = f.id ∧ cr.path = p ∧ cr.content = c) ∧
       ¬ IndexStore.hasFileF (IndexStore.deleteF dbF q) q ∧
       ¬ IndexStore.hasContentF (IndexStore.deleteF dbF q) q) ∧
    (IndexStore.InvB dbB →
       (∀ r, IndexStore.hasContentB dbB r ↔ IndexStore.hasFileB dbB r) ∧
       IndexStore.InvB (IndexStore.upsertB dbB p st c) ∧
       IndexStore.InvB (IndexStore.deleteB dbB q) ∧
       (∃ f ∈ (IndexStore.upsertB dbB p st c).files, f.path = p ∧ f.stat = st ∧
          ∃ cr ∈ (IndexStore.upsertB dbB p st c).content,
            cr.file_id = f.id ∧ cr.content = c) ∧
       ¬ IndexStore.hasFileB (IndexStore.deleteB dbB q) q ∧
       ¬ IndexStore.hasContentB (IndexStore.deleteB dbB q) q) := by
  constructor
  · intro h
    refine ⟨IndexStore.iffF_of_inv dbF h, IndexStore.invF_upsert dbF p st c h,
            IndexStore.invF_delete dbF q h, ?_, ?_, ?_⟩
    · refine ⟨⟨IndexStore.freshId (dbF.files.filter (fun r => decide (r.path ≠ p))), p, st⟩,
        List.mem_append_right _ (List.mem_singleton.mpr rfl), rfl, rfl, ?_⟩
      exact ⟨⟨IndexStore.freshId (dbF.files.filter (fun r => decide (r.path ≠ p))), p, c⟩,
        List.mem_append_right _ (List.mem_singleton.mpr rfl), rfl, rfl, rfl⟩
    · rintro ⟨f, hf, hfp⟩
      have h2 := List.mem_filter.mp hf
      exact absurd hfp (by simpa using h2.2)
    · rintro ⟨c0, hc0, hc0p⟩
      have h2 := List.mem_filter.mp hc0
      exact absurd hc0p (by simpa using h2.2)
  · intro h
    refine ⟨IndexStore.iffB_of_inv dbB h, IndexStore.invB_upsert dbB p st c h,
            IndexStore.invB_delete dbB q h, ?_, ?_, ?_⟩
    · refine ⟨⟨IndexStore.freshId (dbB.files.filter (fun r => decide (r.path ≠ p))), p, st⟩,
        List.mem_append_right _ (List.mem_singleton.mpr rfl), rfl, rfl, ?_⟩
      exact ⟨⟨IndexStore.freshId (dbB.files.filter (fun r => decide (r.path ≠ p))), c⟩,
        List.mem_append_right _ (List.mem_singleton.mpr rfl), rfl, rfl⟩
    · rintro ⟨f, hf, hfp⟩
      have h2 := List.mem_filter.mp hf
      exact absurd hfp (by simpa using h2.2)
    · rintro ⟨c0, hc0, f, hf, _, hfp⟩
      have h2 := List.mem_filter.mp hf
      exact absurd hfp (by simpa using h2.2)

/-- Witness for C5 on a concrete one-file store for each backend: the
invariant holds there and is preserved by a concrete upsert. -/
theorem c5_store_content_iff_files_witness :
    IndexStore.InvF ⟨[⟨1, "/a.txt", ⟨0, 3⟩⟩], [⟨1, "/a.txt", "abc"⟩]⟩ ∧
    IndexStore.InvB ⟨[⟨1, "/a.txt", ⟨0, 3⟩⟩], [⟨1, "abc"⟩]⟩ ∧
    IndexStore.InvF (IndexStore.upsertF ⟨[⟨1, "/a.txt", ⟨0, 3⟩⟩],
      [⟨1, "/a.txt", "abc"⟩]⟩ "/b.md" ⟨1, 4⟩ "xyz") ∧
    IndexStore.InvB (IndexStore.upsertB ⟨[⟨1, "/a.txt", ⟨0, 3⟩⟩],
      [⟨1, "abc"⟩]⟩ "/b.md" ⟨1, 4⟩ "xyz") :=
  ⟨by decide, by decide,
   ((c5_store_content_iff_files ⟨[⟨1, "/a.txt", ⟨0, 3⟩⟩], [⟨1, "/a.txt", "abc"⟩]⟩
      ⟨[⟨1, "/a.txt", ⟨0, 3⟩⟩], [⟨1, "abc"⟩]⟩ "/b.md" "/a.txt" ⟨1, 4⟩ "xyz").1
      (by decide)).2.1,
   ((c5_store_content_iff_files ⟨[⟨1, "/a.txt", ⟨0, 3⟩⟩], [⟨1, "/a.txt", "abc"⟩]⟩
      ⟨[⟨1, "/a.txt", ⟨0, 3⟩⟩], [⟨1, "abc"⟩]⟩ "/b.md" "/a.txt" ⟨1, 4⟩ "xyz").2
      (by decide)).2.1⟩

/-! ## Rebuild model (`DataIndexer.rebuild_index`, lines 217-312) -/

/-- `pathlib.Path.name`: the final path component (empty for the root). -/
def pathName (p : SPath) : String :=
  match p.getLast? with
  | some s => if s = "/" then "" else s
  | none => ""

namespace Rebuild

/-- The store as `rebuild_index` sees it: one record per path holding the
`(mtime, size)` snapshot and the extracted snippet.  (C5 establishes that
the files row and its content row exist together, which justifies this
one-table view.) -/
structure StoreRow where
  path : SPath
  stat : IndexStore.FStat
  snippet : String
deriving DecidableEq

abbrev Store := List StoreRow

/-- `SELECT ... FROM files WHERE path = ?` over the modelled store. -/
def findRow (s : Store) (p : SPath) : Option StoreRow :=
  s.find? (fun r => decide (r.path = p))

/-- `_upsert_file`: replace the record keyed by `path`. -/
def upsertRow (s : Store) (p : SPath) (st : IndexStore.FStat) (snip : String) : Store :=
  s.filter (fun r => decide (r.path ≠ p)) ++ [⟨p, st, snip⟩]

/-- The snippet actually stored for a changed candidate: the extractor's
text, or the filename fallback from lines 269-271. -/
def snippetOf (snip : SPath → ℕ → Option String × Option String)
    (p : SPath) (sz : ℕ) : String :=
  match (snip p sz).1 with
  | some s => s
  | none => pathName p ++ " (no readable text found)"

/-- The mutable run state of the candidate loop of `rebuild_index`:
`seen_paths`, the counters, the diagnostic buffers, the recorded progress
callbacks, the store and the cancellation flag. -/
structure RebState where
  seen : List SPath
  updated : ℕ
  processed : ℕ
  extracted : ℕ
  errors : List SPath
  skips : List (SPath × String)
  progress : List (ℕ × ℕ × SPath)
  store : Store
  cancelled : Bool
deriving DecidableEq

def initState (store0 : Store) : RebState :=
  ⟨[], 0, 0, 0, [], [], [], store0, false⟩

/-- One iteration of the candidate loop (lines 249-281), for candidate `p`
at 1-based index `idx`: mark seen and processed; on stat failure record an
error and move on; if the stored `(mtime, size)` snapshot matches, only
report progress; otherwise extract, upsert, record any note as a skip, and
report progress.  `extracted` counts calls to `_read_text_snippet`. -/
def stepState (stat : SPath → Option IndexStore.FStat)
    (snip : SPath → ℕ → Option String × Option String)
    (snap : Store) (total idx : ℕ) (p : SPath) (st : RebState) : RebState :=
  let st1 := { st with seen := p :: st.seen, processed := st.processed + 1 }
  match stat p with
  | none => { st1 with errors := st1.errors ++ [p] }
  | some fs =>
    let upserted :=
      { st1 with
        store := upsertRow st1.store p fs (snippetOf snip p fs.size),
        updated := st1.updated + 1,
        extracted := st1.extracted + 1,
        skips := match (snip p fs.size).2 with
          | some n => st1.skips ++ [(p, n)]
          | none => st1.skips,
        progress := st1.progress ++ [(idx, total, p)] }
    match findRow snap p with
    | some row =>
        if row.stat = fs then { st1 with progress := st1.progress ++ [(idx, total, p)] }
        else upserted
    | none => upserted

/-- The candidate loop: poll the cancellation flag at each iteration
boundary (`event.is_set()`), stopping with `cancelled = true`. -/
def loop (stat : SPath → Option IndexStore.FStat)
    (snip : SPath → ℕ → Option String × Option String)
    (cancel : ℕ → Bool) (snap : Store) (total : ℕ) :
    List SPath → ℕ → RebState → RebState
  | [], _, st => st
  | p :: rest, idx, st =>
      if cancel idx then { st with cancelled := true }
      else loop stat snip cancel snap total rest (idx + 1)
        (stepState stat snip snap total idx p st)

/-- The observable outcome of `rebuild_index`. -/
structure RebResult where
  total : ℕ
  updated : ℕ
  processed : ℕ
  extracted : ℕ
  errors : ℕ
  skips : List (SPath × String)
  cancelled : Bool
  deletedPaths : List SPath
  progress : List (ℕ × ℕ × SPath)
  store : Store
deriving DecidableEq

/-- `rebuild_index` (lines 217-312), over a crawl result `candidates` and
the starting store: run the candidate loop against the pre-loop snapshot,
then delete every snapshot path absent from `seen_paths` (lines 283-287).
The base-path existence check, metadata writes and document count are
outside the claims and not modelled. -/
def rebuildModel (stat : SPath → Option IndexStore.FStat)
    (snip : SPath → ℕ → Option String × Option String)
    (cancel : ℕ → Bool) (store0 : Store) (candidates : List SPath) : RebResult :=
  let total := candidates.length
  let st := loop stat snip cancel store0 total candidates 1 (initState store0)
  let stale := (store0.map StoreRow.path).filter (fun p => decide (p ∉ st.seen))
  let store' := st.store.filter (fun r => decide (r.path ∉ stale))
  ⟨total, st.updated, st.processed, st.extracted, st.errors.length, st.skips,
   st.cancelled, stale, st.progress, store'⟩

/-- 1-based enumeration, modelling `enumerate(candidates, start=1)`. -/
def withIdx : ℕ → List SPath → List (ℕ × SPath)
  | _, [] => []
  | i, a :: as => (i, a) :: withIdx (i + 1) as

end Rebuild

namespace Rebuild

theorem find?_filter_of_imp {α} (pr keep : α → Bool) :
    ∀ (s : List α), (∀ x ∈ s, pr x = true → keep x = true) →
      (s.filter keep).find? pr = s.find? pr := by
  intro s
  induction s with
  | nil => intro _; rfl
  | cons a as ih =>
    intro h
    by_cases hk : keep a = true
    · rw [List.filter_cons_of_pos hk]
      by_cases hp : pr a = true
      · rw [List.find?_cons_of_pos _ hp, List.find?_cons_of_pos _ hp]
      · rw [List.find?_cons_of_neg _ (by simpa using hp),
            List.find?_cons_of_neg _ (by simpa using hp)]
        exact ih (fun x hx => h x (List.mem_cons_of_mem _ hx))
    · rw [List.filter_cons_of_neg (by simpa using hk)]
      have hp : pr a = false := by
        by_contra hc
        exact hk (h a (List.mem_cons_self _ _) (by simpa using hc))
      rw [List.find?_cons_of_neg _ (by simp [hp])]
      exact ih (fun x hx => h x (List.mem_cons_of_mem _ hx))

theorem findRow_filter_not (s : Store) (p : SPath) :
    (s.filter (fun r => decide (r.path ≠ p))).find?
      (fun r => decide (r.path = p)) = none := by
  rw [List.find?_eq_none]
  intro x hx
  have h2 := List.mem_filter.mp hx
  simp only [decide_eq_true_eq] at h2 ⊢
  exact h2.2

theorem findRow_upsert_self (s : Store) (p : SPath) (st : IndexStore.FStat) (sn : String) :
    findRow (upsertRow s p st sn) p = some ⟨p, st, sn⟩ := by
  unfold findRow upsertRow
  rw [List.find?_append, findRow_filter_not]
  simp [List.find?]

theorem findRow_upsert_other (s : Store) (p q : SPath) (st : IndexStore.FStat)
    (sn : String) (h : q ≠ p) :
    findRow (upsertRow s p st sn) q = findRow s q := by
  unfold findRow upsertRow
  rw [List.find?_append]
  have hnew : List.find? (fun r => decide (r.path = q))
      [(⟨p, st, sn⟩ : StoreRow)] = none := by
    simp only [List.find?]
    rw [decide_eq_false (fun hc : p = q => h hc.symm)]
  have hfil : (s.filter (fun r => decide (r.path ≠ p))).find?
      (fun r => decide (r.path = q)) = s.find? (fun r => decide (r.path = q)) := by
    apply find?_filter_of_imp
    intro x hx hpr
    simp only [decide_eq_true_eq] at hpr ⊢
    rw [hpr]
    exact h
  rw [hnew, hfil]
  cases s.find? (fun r => decide (r.path = q)) <;> simp

end Rebuild

namespace Rebuild

/-- `stepState` when the candidate's stat fails (lines 256-260): record the
error, no progress call, store untouched. -/
theorem stepState_of_stat_none (stat : SPath → Option IndexStore.FStat)
    (snip : SPath → ℕ → Option String × Option String) (snap : Store)
    (total idx : ℕ) (p : SPath) (st : RebState) (h : stat p = none) :
    stepState stat snip snap total idx p st =
      { st with seen := p :: st.seen, processed := st.processed + 1,
                errors := st.errors ++ [p] } := by
  simp only [stepState, h]

/-- `stepState` when the stored snapshot matches the current stat
(lines 262-266): progress only. -/
theorem stepState_of_unchanged (stat : SPath → Option IndexStore.FStat)
    (snip : SPath → ℕ → Option String × Option String) (snap : Store)
    (total idx : ℕ) (p : SPath) (st : RebState) (fs : IndexStore.FStat)
    (row : StoreRow) (h : stat p = some fs) (h2 : findRow snap p = some row)
    (h3 : row.stat = fs) :
    stepState stat snip snap total idx p st =
      { st with seen := p :: st.seen, processed := st.processed + 1,
                progress := st.progress ++ [(idx, total, p)] } := by
  simp only [stepState, h, h2, h3, if_pos]

/-- `stepState` when the candidate is new or its snapshot differs
(lines 268-281): extract, upsert, record the note, progress. -/
theorem stepState_of_changed (stat : SPath → Option IndexStore.FStat)
    (snip : SPath → ℕ → Option String × Option String) (snap : Store)
    (total idx : ℕ) (p : SPath) (st : RebState) (fs : IndexStore.FStat)
    (h : stat p = some fs)
    (h2 : findRow snap p = none ∨
      ∃ row, findRow snap p = some row ∧ row.stat ≠ fs) :
    stepState stat snip snap total idx p st =
      { st with seen := p :: st.seen, processed := st.processed + 1,
                store := upsertRow st.store p fs (snippetOf snip p fs.size),
                updated := st.updated + 1, extracted := st.extracted + 1,
                skips := match (snip p fs.size).2 with
                  | some n => st.skips ++ [(p, n)]
                  | none => st.skips,
                progress := st.progress ++ [(idx, total, p)] } := by
  rcases h2 with h2 | ⟨row, h2, h3⟩
  · simp only [stepState, h, h2]
  · simp only [stepState, h, h2]
    rw [if_neg h3]

/-- The loop-body invariant relating the current store to the pre-loop
snapshot: unseen paths are untouched; every seen, stat-able path has a
record matching its current stat; the store's paths stay within snapshot
paths plus seen paths. -/
def StoreInv (stat : SPath → Option IndexStore.FStat) (snap : Store)
    (seen : List SPath) (cur : Store) : Prop :=
  (∀ p, p ∉ seen → findRow cur p = findRow snap p) ∧
  (∀ p fs, p ∈ seen → stat p = some fs →
     ∃ row, findRow cur p = some row ∧ row.stat = fs) ∧
  (∀ q, q ∈ cur.map StoreRow.path → q ∈ snap.map StoreRow.path ∨ q ∈ seen)

theorem stepState_inv (stat : SPath → Option IndexStore.FStat)
    (snip : SPath → ℕ → Option String × Option String) (snap : Store)
    (total idx : ℕ) (p : SPath) (st : RebState)
    (h : StoreInv stat snap st.seen st.store) :
    StoreInv stat snap (stepState stat snip snap total idx p st).seen
      (stepState stat snip snap total idx p st).store ∧
    (stepState stat snip snap total idx p st).seen = p :: st.seen ∧
    (stepState stat snip snap total idx p st).cancelled = st.cancelled := by
  obtain ⟨h1, h2, h3⟩ := h
  cases hstat : stat p with
  | none =>
    rw [stepState_of_stat_none stat snip snap total idx p st hstat]
    refine ⟨⟨?_, ?_, ?_⟩, rfl, rfl⟩
    · intro q hq
      exact h1 q (fun hc => hq (List.mem_cons_of_mem _ hc))
    · intro q fs hq hfs
      rcases List.mem_cons.mp hq with hq | hq
      · rw [hq] at hfs; rw [hstat] at hfs; cases hfs
      · exact h2 q fs hq hfs
    · intro q hq
      rcases h3 q hq with hc | hc
      · exact Or.inl hc
      · exact Or.inr (List.mem_cons_of_mem _ hc)
  | some fs =>
    cases hfind : findRow snap p with
    | some row =>
      by_cases hrow : row.stat = fs
      · rw [stepState_of_unchanged stat snip snap total idx p st fs row hstat hfind hrow]
        refine ⟨⟨?_, ?_, ?_⟩, rfl, rfl⟩
        · intro q hq
          exact h1 q (fun hc => hq (List.mem_cons_of_mem _ hc))
        · intro q fs' hq hfs
          rcases List.mem_cons.mp hq with hq | hq
          · subst hq
            by_cases hseen : q ∈ st.seen
            · exact h2 q fs' hseen hfs
            · rw [hstat] at hfs
              obtain rfl : fs = fs' := Option.some.inj hfs
              exact ⟨row, by rw [h1 q hseen, hfind], hrow⟩
          · exact h2 q fs' hq hfs
        · intro q hq
          rcases h3 q hq with hc | hc
          · exact Or.inl hc
          · exact Or.inr (List.mem_cons_of_mem _ hc)
      · rw [stepState_of_changed stat snip snap total idx p st fs hstat
            (Or.inr ⟨row, hfind, hrow⟩)]
        refine ⟨⟨?_, ?_, ?_⟩, rfl, rfl⟩
        · intro q hq
          have hqp : q ≠ p := fun hc => hq (hc ▸ List.mem_cons_self _ _)
          rw [findRow_upsert_other _ _ _ _ _ hqp]
          exact h1 q (fun hc => hq (List.mem_cons_of_mem _ hc))
        · intro q fs' hq hfs
          by_cases hqp : q = p
          · subst hqp
            rw [hstat] at hfs
            obtain rfl : fs = fs' := Option.some.inj hfs
            exact ⟨⟨q, fs, snippetOf snip q fs.size⟩, findRow_upsert_self _ _ _ _, rfl⟩
          · rw [findRow_upsert_other _ _ _ _ _ hqp]
            rcases List.mem_cons.mp hq with hq | hq
            · exact absurd hq hqp
            · exact h2 q fs' hq hfs
        · intro q hq
          simp only [upsertRow, List.map_append, List.mem_append] at hq
          rcases hq with hq | hq
          · obtain ⟨r, hr, hrq⟩ := List.mem_map.mp hq
            have hr2 := (List.mem_filter.mp hr).1
            rcases h3 q (List.mem_map.mpr ⟨r, hr2, hrq⟩) with hc | hc
            · exact Or.inl hc
            · exact Or.inr (List.mem_cons_of_mem _ hc)
          · simp only [List.map_cons, List.map_nil, List.mem_singleton] at hq
            exact Or.inr (hq ▸ List.mem_cons_self _ _)
    | none =>
      rw [stepState_of_changed stat snip snap total idx p st fs hstat (Or.inl hfind)]
      refine ⟨⟨?_, ?_, ?_⟩, rfl, rfl⟩
      · intro q hq
        have hqp : q ≠ p := fun hc => hq (hc ▸ List.mem_cons_self _ _)
        rw [findRow_upsert_other _ _ _ _ _ hqp]
        exact h1 q (fun hc => hq (List.mem_cons_of_mem _ hc))
      · intro q fs' hq hfs
        by_cases hqp : q = p
        · subst hqp
          rw [hstat] at hfs
          obtain rfl : fs = fs' := Option.some.inj hfs
          exact ⟨⟨q, fs, snippetOf snip q fs.size⟩, findRow_upsert_self _ _ _ _, rfl⟩
        · rw [findRow_upsert_other _ _ _ _ _ hqp]
          rcases List.mem_cons.mp hq with hq | hq
          · exact absurd hq hqp
          · exact h2 q fs' hq hfs
      · intro q hq
        simp only [upsertRow, List.map_append, List.mem_append] at hq
        rcases hq with hq | hq
        · obtain ⟨r, hr, hrq⟩ := List.mem_map.mp hq
          have hr2 := (List.mem_filter.mp hr).1
          rcases h3 q (List.mem_map.mpr ⟨r, hr2, hrq⟩) with hc | hc
          · exact Or.inl hc
          · exact Or.inr (List.mem_cons_of_mem _ hc)
        · simp only [List.map_cons, List.map_nil, List.mem_singleton] at hq
          exact Or.inr (hq ▸ List.mem_cons_self _ _)

end Rebuild


namespace Rebuild

theorem loop_nil (stat : SPath → Option IndexStore.FStat)
    (snip : SPath → ℕ → Option String × Option String) (cancel : ℕ → Bool)
    (snap : Store) (total idx : ℕ) (st : RebState) :
    loop stat snip cancel snap total [] idx st = st := rfl

theorem loop_cons_nocancel (stat : SPath → Option IndexStore.FStat)
    (snip : SPath → ℕ → Option String × Option String) (snap : Store)
    (total : ℕ) (p : SPath) (rest : List SPath) (idx : ℕ) (st : RebState) :
    loop stat snip (fun _ => false) snap total (p :: rest) idx st =
      loop stat snip (fun _ => false) snap total rest (idx + 1)
        (stepState stat snip snap total idx p st) := rfl

theorem loop_inv (stat : SPath → Option IndexStore.FStat)
    (snip : SPath → ℕ → Option String × Option String) (snap : Store) (total : ℕ) :
    ∀ (cands : List SPath) (idx : ℕ) (st : RebState),
      StoreInv stat snap st.seen st.store →
      StoreInv stat snap (loop stat snip (fun _ => false) snap total cands idx st).seen
          (loop stat snip (fun _ => false) snap total cands idx st).store ∧
        (∀ p, p ∈ (loop stat snip (fun _ => false) snap total cands idx st).seen ↔
          p ∈ st.seen ∨ p ∈ cands) ∧
        (loop stat snip (fun _ => false) snap total cands idx st).cancelled =
          st.cancelled := by
  intro cands
  induction cands with
  | nil =>
    intro idx st h
    rw [loop_nil]
    exact ⟨h, fun p => by simp, rfl⟩
  | cons p rest ih =>
    intro idx st h
    rw [loop_cons_nocancel]
    have hstep := stepState_inv stat snip snap total idx p st h
    obtain ⟨hrec, hseen, hcanc⟩ := ih (idx + 1) (stepState stat snip snap total idx p st) hstep.1
    refine ⟨hrec, ?_, by rw [hcanc, hstep.2.2]⟩
    intro q
    rw [hseen q, hstep.2.1]
    simp only [List.mem_cons]
    tauto

theorem loop_no_change (stat : SPath → Option IndexStore.FStat)
    (snip : SPath → ℕ → Option String × Option String) (snap : Store) (total : ℕ) :
    ∀ (cands : List SPath) (idx : ℕ) (st : RebState),
      (∀ p fs, p ∈ cands → stat p = some fs →
        ∃ row, findRow snap p = some row ∧ row.stat = fs) →
      (loop stat snip (fun _ => false) snap total cands idx st).store = st.store ∧
      (loop stat snip (fun _ => false) snap total cands idx st).updated = st.updated ∧
      (loop stat snip (fun _ => false) snap total cands idx st).extracted = st.extracted ∧
      (loop stat snip (fun _ => false) snap total cands idx st).processed =
        st.processed + cands.length ∧
      (∀ p, p ∈ (loop stat snip (fun _ => false) snap total cands idx st).seen ↔
        p ∈ st.seen ∨ p ∈ cands) ∧
      (loop stat snip (fun _ => false) snap total cands idx st).cancelled =
        st.cancelled := by
  intro cands
  induction cands with
  | nil =>
    intro idx st _
    rw [loop_nil]
    exact ⟨rfl, rfl, rfl, by simp, fun p => by simp, rfl⟩
  | cons p rest ih =>
    intro idx st h
    rw [loop_cons_nocancel]
    have hrest : ∀ q fs, q ∈ rest → stat q = some fs →
        ∃ row, findRow snap q = some row ∧ row.stat = fs :=
      fun q fs hq => h q fs (List.mem_cons_of_mem _ hq)
    obtain ⟨ihs, ihu, ihe, ihp, ihseen, ihc⟩ :=
      ih (idx + 1) (stepState stat snip snap total idx p st) hrest
    have hstep : (stepState stat snip snap total idx p st).store = st.store ∧
        (stepState stat snip snap total idx p st).updated = st.updated ∧
        (stepState stat snip snap total idx p st).extracted = st.extracted ∧
        (stepState stat snip snap total idx p st).processed = st.processed + 1 ∧
        (stepState stat snip snap total idx p st).seen = p :: st.seen ∧
        (stepState stat snip snap total idx p st).cancelled = st.cancelled := by
      cases hstat : stat p with
      | none =>
        rw [stepState_of_stat_none stat snip snap total idx p st hstat]
        exact ⟨rfl, rfl, rfl, rfl, rfl, rfl⟩
      | some fs =>
        obtain ⟨row, hrow, hrows⟩ := h p fs (List.mem_cons_self _ _) hstat
        rw [stepState_of_unchanged stat snip snap total idx p st fs row hstat hrow hrows]
        exact ⟨rfl, rfl, rfl, rfl, rfl, rfl⟩
    refine ⟨by rw [ihs, hstep.1], by rw [ihu, hstep.2.1], by rw [ihe, hstep.2.2.1],
      by rw [ihp, hstep.2.2.2.1]; simp [List.length_cons]; omega, ?_,
      by rw [ihc, hstep.2.2.2.2.2]⟩
    intro q
    rw [ihseen q, hstep.2.2.2.2.1]
    simp only [List.mem_cons]
    tauto

theorem loop_progress (stat : SPath → Option IndexStore.FStat)
    (snip : SPath → ℕ → Option String × Option String) (snap : Store) (total : ℕ) :
    ∀ (cands : List SPath) (idx : ℕ) (st : RebState),
      (loop stat snip (fun _ => false) snap total cands idx st).progress =
        st.progress ++ ((withIdx idx cands).filter
          (fun x => (stat x.2).isSome)).map (fun x => (x.1, total, x.2)) := by
  intro cands
  induction cands with
  | nil => intro idx st; rw [loop_nil]; simp [withIdx]
  | cons p rest ih =>
    intro idx st
    rw [loop_cons_nocancel, ih (idx + 1) (stepState stat snip snap total idx p st)]
    cases hstat : stat p with
    | none =>
      rw [stepState_of_stat_none stat snip snap total idx p st hstat]
      simp [withIdx, hstat]
    | some fs =>
      have hprog : (stepState stat snip snap total idx p st).progress =
          st.progress ++ [(idx, total, p)] := by
        cases hfind : findRow snap p with
        | some row =>
          by_cases hrow : row.stat = fs
          · rw [stepState_of_unchanged stat snip snap total idx p st fs row hstat hfind hrow]
          · rw [stepState_of_changed stat snip snap total idx p st fs hstat
              (Or.inr ⟨row, hfind, hrow⟩)]
        | none =>
          rw [stepState_of_changed stat snip snap total idx p st fs hstat (Or.inl hfind)]
      rw [hprog]
      simp [withIdx, hstat]

end Rebuild

namespace Rebuild

theorem loop_cons (stat : SPath → Option IndexStore.FStat)
    (snip : SPath → ℕ → Option String × Option String) (cancel : ℕ → Bool)
    (snap : Store) (total : ℕ) (p : SPath) (rest : List SPath) (idx : ℕ)
    (st : RebState) :
    loop stat snip cancel snap total (p :: rest) idx st =
      if cancel idx then { st with cancelled := true }
      else loop stat snip cancel snap total rest (idx + 1)
        (stepState stat snip snap total idx p st) := rfl

theorem stepState_seen (stat : SPath → Option IndexStore.FStat)
    (snip : SPath → ℕ → Option String × Option String) (snap : Store)
    (total idx : ℕ) (p : SPath) (st : RebState) :
    (stepState stat snip snap total idx p st).seen = p :: st.seen := by
  cases hstat : stat p with
  | none => rw [stepState_of_stat_none stat snip snap total idx p st hstat]
  | some fs =>
    cases hfind : findRow snap p with
    | some row =>
      by_cases hrow : row.stat = fs
      · rw [stepState_of_unchanged stat snip snap total idx p st fs row hstat hfind hrow]
      · rw [stepState_of_changed stat snip snap total idx p st fs hstat
          (Or.inr ⟨row, hfind, hrow⟩)]
    | none => rw [stepState_of_changed stat snip snap total idx p st fs hstat (Or.inl hfind)]

theorem stepState_skips_sub (stat : SPath → Option IndexStore.FStat)
    (snip : SPath → ℕ → Option String × Option String) (snap : Store)
    (total idx : ℕ) (p : SPath) (st : RebState) (x : SPath × String)
    (hx : x ∈ st.skips) : x ∈ (stepState stat snip snap total idx p st).skips := by
  cases hstat : stat p with
  | none => rw [stepState_of_stat_none stat snip snap total idx p st hstat]; exact hx
  | some fs =>
    have hup : x ∈ (match (snip p fs.size).2 with
        | some n => st.skips ++ [(p, n)]
        | none => st.skips) := by
      cases hnote : (snip p fs.size).2 with
      | some n => exact List.mem_append_left _ hx
      | none => exact hx
    cases hfind : findRow snap p with
    | some row =>
      by_cases hrow : row.stat = fs
      · rw [stepState_of_unchanged stat snip snap total idx p st fs row hstat hfind hrow]
        exact hx
      · rw [stepState_of_changed stat snip snap total idx p st fs hstat
          (Or.inr ⟨row, hfind, hrow⟩)]
        exact hup
    | none =>
      rw [stepState_of_changed stat snip snap total idx p st fs hstat (Or.inl hfind)]
      exact hup

theorem stepState_store_frame (stat : SPath → Option IndexStore.FStat)
    (snip : SPath → ℕ → Option String × Option String) (snap : Store)
    (total idx : ℕ) (p : SPath) (st : RebState) (q : SPath) (hq : q ≠ p) :
    findRow (stepState stat snip snap total idx p st).store q =
      findRow st.store q := by
  cases hstat : stat p with
  | none => rw [stepState_of_stat_none stat snip snap total idx p st hstat]
  | some fs =>
    cases hfind : findRow snap p with
    | some row =>
      by_cases hrow : row.stat = fs
      · rw [stepState_of_unchanged stat snip snap total idx p st fs row hstat hfind hrow]
      · rw [stepState_of_changed stat snip snap total idx p st fs hstat
          (Or.inr ⟨row, hfind, hrow⟩)]
        exact findRow_upsert_other _ _ _ _ _ hq
    | none =>
      rw [stepState_of_changed stat snip snap total idx p st fs hstat (Or.inl hfind)]
      exact findRow_upsert_other _ _ _ _ _ hq

theorem loop_skips_mono (stat : SPath → Option IndexStore.FStat)
    (snip : SPath → ℕ → Option String × Option String) (snap : Store) (total : ℕ) :
    ∀ (cands : List SPath) (idx : ℕ) (st : RebState) (x : SPath × String),
      x ∈ st.skips →
      x ∈ (loop stat snip (fun _ => false) snap total cands idx st).skips := by
  intro cands
  induction cands with
  | nil => intro idx st x hx; rw [loop_nil]; exact hx
  | cons p rest ih =>
    intro idx st x hx
    rw [loop_cons_nocancel]
    exact ih (idx + 1) _ x (stepState_skips_sub stat snip snap total idx p st x hx)

theorem loop_store_frame (stat : SPath → Option IndexStore.FStat)
    (snip : SPath → ℕ → Option String × Option String) (snap : Store) (total : ℕ) :
    ∀ (cands : List SPath) (idx : ℕ) (st : RebState) (q : SPath),
      q ∉ cands →
      findRow (loop stat snip (fun _ => false) snap total cands idx st).store q =
        findRow st.store q := by
  intro cands
  induction cands with
  | nil => intro idx st q _; rw [loop_nil]
  | cons p rest ih =>
    intro idx st q hq
    rw [loop_cons_nocancel,
        ih (idx + 1) _ q (fun hc => hq (List.mem_cons_of_mem _ hc)),
        stepState_store_frame stat snip snap total idx p st q
          (fun hc => hq (hc ▸ List.mem_cons_self _ _))]

theorem loop_fresh (stat : SPath → Option IndexStore.FStat)
    (snip : SPath → ℕ → Option String × Option String) (snap : Store) (total : ℕ) :
    ∀ (cands : List SPath) (idx : ℕ) (st : RebState) (p : SPath)
      (fs : IndexStore.FStat),
      p ∈ cands → stat p = some fs →
      (findRow snap p = none ∨
        ∃ row, findRow snap p = some row ∧ row.stat ≠ fs) →
      findRow (loop stat snip (fun _ => false) snap total cands idx st).store p =
        some ⟨p, fs, snippetOf snip p fs.size⟩ ∧
      (∀ n, (snip p fs.size).2 = some n →
        (p, n) ∈ (loop stat snip (fun _ => false) snap total cands idx st).skips) := by
  intro cands
  induction cands with
  | nil => intro idx st p fs hmem; cases hmem
  | cons q rest ih =>
    intro idx st p fs hmem hstat hsnap
    rw [loop_cons_nocancel]
    by_cases hrest : p ∈ rest
    · exact ih (idx + 1) _ p fs hrest hstat hsnap
    · have hpq : p = q := by
        rcases List.mem_cons.mp hmem with h | h
        · exact h
        · exact absurd h hrest
      subst hpq
      rw [stepState_of_changed stat snip snap total idx p st fs hstat hsnap]
      constructor
      · rw [loop_store_frame stat snip snap total rest (idx + 1) _ p hrest]
        exact findRow_upsert_self _ _ _ _
      · intro n hn
        apply loop_skips_mono
        rw [hn]
        exact List.mem_append_right _ (List.mem_singleton.mpr rfl)

theorem loop_cancel_seen (stat : SPath → Option IndexStore.FStat)
    (snip : SPath → ℕ → Option String × Option String) (snap : Store)
    (total k : ℕ) :
    ∀ (cands : List SPath) (idx : ℕ) (st : RebState),
      idx ≤ k → k < idx + cands.length →
      (loop stat snip (fun i => decide (k ≤ i)) snap total cands idx st).cancelled = true ∧
      (∀ p, p ∈ (loop stat snip (fun i => decide (k ≤ i)) snap total cands idx st).seen ↔
        p ∈ st.seen ∨ p ∈ cands.take (k - idx)) := by
  intro cands
  induction cands with
  | nil =>
    intro idx st h1 h2
    simp at h2
    omega
  | cons p rest ih =>
    intro idx st h1 h2
    rw [loop_cons]
    by_cases hk : k ≤ idx
    · have : k = idx := le_antisymm hk h1
      subst this
      rw [if_pos (by simp)]
      refine ⟨rfl, fun q => ?_⟩
      simp [Nat.sub_self]
    · have hik : idx < k := lt_of_not_le hk
      rw [if_neg (by simp; omega)]
      obtain ⟨hc, hs⟩ := ih (idx + 1) (stepState stat snip snap total idx p st)
        (by omega) (by simp at h2 ⊢; omega)
      refine ⟨hc, fun q => ?_⟩
      rw [hs q, stepState_seen]
      have htake : (p :: rest).take (k - idx) = p :: rest.take (k - (idx + 1)) := by
        have : k - idx = (k - (idx + 1)) + 1 := by omega
        rw [this, List.take_succ_cons]
      rw [htake]
      simp only [List.mem_cons]
      tauto

end Rebuild

/-! ## C4: rebuild idempotence -/

/-- **C4.** Rebuild is idempotent: a second `rebuild_index` over the same
candidates with the same stat results (no filesystem change) reports
`updated = 0`, extracts nothing, deletes nothing, leaves the store
unchanged, counts every candidate as processed, and is not cancelled. -/
theorem c4_rebuild_idempotent (stat : SPath → Option IndexStore.FStat)
    (snip : SPath → ℕ → Option String × Option String)
    (store0 : Rebuild.Store) (cands : List SPath) :
    (Rebuild.rebuildModel stat snip (fun _ => false)
        (Rebuild.rebuildModel stat snip (fun _ => false) store0 cands).store
        cands).updated = 0 ∧
    (Rebuild.rebuildModel stat snip (fun _ => false)
        (Rebuild.rebuildModel stat snip (fun _ => false) store0 cands).store
        cands).extracted = 0 ∧
    (Rebuild.rebuildModel stat snip (fun _ => false)
        (Rebuild.rebuildModel stat snip (fun _ => false) store0 cands).store
        cands).deletedPaths = [] ∧
    (Rebuild.rebuildModel stat snip (fun _ => false)
        (Rebuild.rebuildModel stat snip (fun _ => false) store0 cands).store
        cands).store =
      (Rebuild.rebuildModel stat snip (fun _ => false) store0 cands).store ∧
    (Rebuild.rebuildModel stat snip (fun _ => false)
        (Rebuild.rebuildModel stat snip (fun _ => false) store0 cands).store
        cands).processed = cands.length ∧
    (Rebuild.rebuildModel stat snip (fun _ => false)
        (Rebuild.rebuildModel stat snip (fun _ => false) store0 cands).store
        cands).cancelled = false := by
  classical
  -- characterize the store left by the first rebuild
  have hinv0 : Rebuild.StoreInv stat store0 (Rebuild.initState store0).seen
      (Rebuild.initState store0).store :=
    ⟨fun _ _ => rfl, fun p _ hp => absurd hp (List.not_mem_nil p), fun _ hq => Or.inl hq⟩
  obtain ⟨⟨g1, g2, g3⟩, gseen, gcanc⟩ :=
    Rebuild.loop_inv stat snip store0 cands.length cands 1 (Rebuild.initState store0) hinv0
  set L := Rebuild.loop stat snip (fun _ => false) store0 cands.length cands 1
    (Rebuild.initState store0) with hL
  set stale1 := (store0.map Rebuild.StoreRow.path).filter
    (fun p => decide (p ∉ L.seen)) with hstale1
  have hr1store : (Rebuild.rebuildModel stat snip (fun _ => false) store0 cands).store =
      L.store.filter (fun r => decide (r.path ∉ stale1)) := rfl
  have hseenc : ∀ p, p ∈ L.seen ↔ p ∈ cands := by
    intro p
    rw [gseen p]
    simp [Rebuild.initState]
  have hA : ∀ p fs, p ∈ cands → stat p = some fs →
      ∃ row, Rebuild.findRow
        (Rebuild.rebuildModel stat snip (fun _ => false) store0 cands).store p =
          some row ∧ row.stat = fs := by
    intro p fs hp hfs
    obtain ⟨row, hrow, hrows⟩ := g2 p fs ((hseenc p).mpr hp) hfs
    refine ⟨row, ?_, hrows⟩
    have hkeep : ∀ x ∈ L.store, decide (x.path = p) = true →
        decide (x.path ∉ stale1) = true := by
      intro x _ hpr
      simp only [decide_eq_true_eq] at hpr ⊢
      rw [hpr]
      intro hmem
      have h2 := (List.mem_filter.mp hmem).2
      simp only [decide_eq_true_eq] at h2
      exact h2 ((hseenc p).mpr hp)
    have heq : Rebuild.findRow (L.store.filter (fun r => decide (r.path ∉ stale1))) p =
        Rebuild.findRow L.store p :=
      Rebuild.find?_filter_of_imp _ _ L.store hkeep
    rw [hr1store, heq, hrow]
  have hB : ∀ q, q ∈ (Rebuild.rebuildModel stat snip (fun _ => false) store0
      cands).store.map Rebuild.StoreRow.path → q ∈ cands := by
    intro q hq
    obtain ⟨r, hr, hrq⟩ := List.mem_map.mp hq
    rw [hr1store] at hr
    have hfil := List.mem_filter.mp hr
    have hkeep := hfil.2
    simp only [decide_eq_true_eq] at hkeep
    subst hrq
    rcases g3 r.path (List.mem_map.mpr ⟨r, hfil.1, rfl⟩) with hc | hc
    · by_cases hseen : r.path ∈ L.seen
      · exact (hseenc r.path).mp hseen
      · exact absurd (List.mem_filter.mpr ⟨hc, by simpa using hseen⟩) hkeep
    · exact (hseenc r.path).mp hc
  -- the second run takes the unchanged branch everywhere
  obtain ⟨h2s, h2u, h2e, h2p, h2seen, h2c⟩ :=
    Rebuild.loop_no_change stat snip
      (Rebuild.rebuildModel stat snip (fun _ => false) store0 cands).store cands.length
      cands 1 (Rebuild.initState
        (Rebuild.rebuildModel stat snip (fun _ => false) store0 cands).store) hA
  set R1 := (Rebuild.rebuildModel stat snip (fun _ => false) store0 cands).store with hR1
  set L2 := Rebuild.loop stat snip (fun _ => false) R1 cands.length cands 1
    (Rebuild.initState R1) with hL2
  have hstale2 : (R1.map Rebuild.StoreRow.path).filter
      (fun p => decide (p ∉ L2.seen)) = [] := by
    rw [List.filter_eq_nil_iff]
    intro q hq
    simp only [decide_eq_true_eq, Decidable.not_not]
    exact (h2seen q).mpr (Or.inr (hB q hq))
  have hstore2 : L2.store.filter
      (fun r => decide (r.path ∉ ((R1.map Rebuild.StoreRow.path).filter
        (fun p => decide (p ∉ L2.seen))))) = R1 := by
    rw [hstale2]
    have : L2.store = R1 := by
      rw [h2s]
      rfl
    rw [List.filter_eq_self.mpr (by intro a _; simp), this]
  refine ⟨?_, ?_, ?_, ?_, ?_, ?_⟩
  · show L2.updated = 0
    rw [h2u]
    rfl
  · show L2.extracted = 0
    rw [h2e]
    rfl
  · exact hstale2
  · exact hstore2
  · show L2.processed = cands.length
    rw [h2p]
    simp [Rebuild.initState]
  · show L2.cancelled = false
    rw [h2c]
    rfl

/-! ## C6: progress callback -/

/-- **C6 counterexample.** A non-cancelled rebuild over one candidate whose
stat fails invokes the progress callback zero times, not `total = 1` times:
the stat-failure branch (lines 256-260) `continue`s before the callback. -/
theorem c6_counterexample :
    (Rebuild.rebuildModel (fun _ => none) (fun _ _ => (none, none)) (fun _ => false)
      [] [["/", "data", "x.txt"]]).progress = [] ∧
    (Rebuild.rebuildModel (fun _ => none) (fun _ _ => (none, none)) (fun _ => false)
      [] [["/", "data", "x.txt"]]).total = 1 ∧
    (Rebuild.rebuildModel (fun _ => none) (fun _ _ => (none, none)) (fun _ => false)
      [] [["/", "data", "x.txt"]]).cancelled = false ∧
    (Rebuild.rebuildModel (fun _ => none) (fun _ _ => (none, none)) (fun _ => false)
      [] [["/", "data", "x.txt"]]).processed = 1 := by
  decide

/-- **C6 (amended).** In a non-cancelled rebuild the progress callback is
invoked, in enumeration order with `(index, total, path)`, after every
candidate whose stat succeeds — unchanged candidates included — but not
after candidates whose stat fails; so it is called `total` minus the number
of stat-failed candidates times. -/
theorem c6_progress_after_statted_candidates (stat : SPath → Option IndexStore.FStat)
    (snip : SPath → ℕ → Option String × Option String)
    (store0 : Rebuild.Store) (cands : List SPath) :
    (Rebuild.rebuildModel stat snip (fun _ => false) store0 cands).progress =
      ((Rebuild.withIdx 1 cands).filter (fun x => (stat x.2).isSome)).map
        (fun x => (x.1, cands.length, x.2)) := by
  show (Rebuild.loop stat snip (fun _ => false) store0 cands.length cands 1
    (Rebuild.initState store0)).progress = _
  rw [Rebuild.loop_progress stat snip store0 cands.length cands 1 (Rebuild.initState store0)]
  simp [Rebuild.initState]

/-! ## C10: stale deletion after cancellation -/

/-- **C10.** If a rebuild is cancelled at candidate index `k` (with
`1 ≤ k ≤ total`), the run reports `cancelled = true` and the stale-deletion
pass still runs against the partial seen set: every previously indexed path
not among the first `k - 1` candidates is deleted from the store — whether
or not it still exists on disk (`stat` is unconstrained). -/
theorem c10_cancelled_rebuild_deletes_unseen (stat : SPath → Option IndexStore.FStat)
    (snip : SPath → ℕ → Option String × Option String)
    (store0 : Rebuild.Store) (cands : List SPath) (k : ℕ)
    (h1 : 1 ≤ k) (h2 : k ≤ cands.length) :
    (Rebuild.rebuildModel stat snip (fun i => decide (k ≤ i)) store0 cands).cancelled
      = true ∧
    ∀ q ∈ store0.map Rebuild.StoreRow.path, q ∉ cands.take (k - 1) →
      Rebuild.findRow
        (Rebuild.rebuildModel stat snip (fun i => decide (k ≤ i)) store0 cands).store q
        = none := by
  obtain ⟨hc, hs⟩ := Rebuild.loop_cancel_seen stat snip store0 cands.length k cands 1
    (Rebuild.initState store0) h1 (by omega)
  set L := Rebuild.loop stat snip (fun i => decide (k ≤ i)) store0 cands.length cands 1
    (Rebuild.initState store0) with hL
  refine ⟨hc, ?_⟩
  intro q hq hqtake
  have hqseen : q ∉ L.seen := by
    rw [hs q]
    simp only [Rebuild.initState, List.not_mem_nil, false_or]
    exact hqtake
  have hstale : q ∈ (store0.map Rebuild.StoreRow.path).filter
      (fun p => decide (p ∉ L.seen)) :=
    List.mem_filter.mpr ⟨hq, by simpa using hqseen⟩
  show Rebuild.findRow (L.store.filter (fun r => decide (r.path ∉
    (store0.map Rebuild.StoreRow.path).filter (fun p => decide (p ∉ L.seen))))) q = none
  have : ∀ r ∈ L.store.filter (fun r => decide (r.path ∉
      (store0.map Rebuild.StoreRow.path).filter (fun p => decide (p ∉ L.seen)))),
      ¬ ((fun r : Rebuild.StoreRow => decide (r.path = q)) r = true) := by
    intro r hr
    have hkeep := (List.mem_filter.mp hr).2
    simp only [decide_eq_true_eq] at hkeep ⊢
    intro hrq
    exact hkeep (hrq ▸ hstale)
  exact List.find?_eq_none.mpr this

/-- Witness for C10: cancelling at the very first candidate of a one-file
crawl deletes the previously indexed `/b.txt` even though its stat would
still succeed. -/
theorem c10_cancelled_rebuild_deletes_unseen_witness :
    1 ≤ 1 ∧ 1 ≤ ([(["/", "a.txt"] : SPath)]).length ∧
    ((Rebuild.rebuildModel (fun _ => some ⟨0, 1⟩) (fun _ _ => (none, none))
        (fun i => decide (1 ≤ i))
        [⟨["/", "b.txt"], ⟨0, 1⟩, "old"⟩] [["/", "a.txt"]]).cancelled = true ∧
      ∀ q ∈ ([(⟨["/", "b.txt"], ⟨0, 1⟩, "old"⟩ : Rebuild.StoreRow)]).map
          Rebuild.StoreRow.path,
        q ∉ ([(["/", "a.txt"] : SPath)]).take (1 - 1) →
        Rebuild.findRow
          (Rebuild.rebuildModel (fun _ => some ⟨0, 1⟩) (fun _ _ => (none, none))
            (fun i => decide (1 ≤ i))
            [⟨["/", "b.txt"], ⟨0, 1⟩, "old"⟩] [["/", "a.txt"]]).store q = none) :=
  ⟨by decide, by decide,
   c10_cancelled_rebuild_deletes_unseen (fun _ => some ⟨0, 1⟩) (fun _ _ => (none, none))
     [⟨["/", "b.txt"], ⟨0, 1⟩, "old"⟩] [["/", "a.txt"]] 1 (by decide) (by decide)⟩

/-! ## Extractor model (`DataIndexer._read_text_snippet`, lines 550-598) -/

namespace Extract

/-- `TEXT_EXTENSIONS` from `data_indexer.py`. -/
def TEXT_EXTENSIONS : List String :=
  [".txt", ".md", ".markdown", ".rst", ".json", ".cfg", ".ini", ".yaml",
   ".yml", ".csv", ".toml", ".log", ".html", ".css", ".scss", ".less"]

/-- `CODE_EXTENSIONS` from `data_indexer.py`. -/
def CODE_EXTENSIONS : List String := [".py", ".js", ".ts", ".jsx", ".tsx"]

def MAX_SNIPPET_CHARS : ℕ := 6000

/-- Index of the last `'.'` in a character list, if any. -/
def lastDotIdx (cs : List Char) : Option ℕ :=
  (((cs.enum).filter (fun x => decide (x.2 = '.'))).getLast?).map Prod.fst

/-- `pathlib.PurePath.suffix`: `name[i:]` for the last dot index `i` when
`0 < i < len(name) - 1`, else the empty string. -/
def suffixOf (name : String) : String :=
  let cs := name.toList
  match lastDotIdx cs with
  | some i => if 0 < i ∧ i < cs.length - 1 then String.mk (cs.drop i) else ""
  | none => ""

/-- ASCII lowering, modelling `str.lower()` on the ASCII strings in play. -/
def lowerStr (s : String) : String := String.mk (s.toList.map Char.toLower)

/-- Python's `f"{x:.1f}"` on the (clamped, hence ≥ 1) megabyte limit:
one digit after the decimal point.  (Rounding of the tenth digit is
modelled as round-half-up; no claim depends on the tie behaviour.) -/
def fmt1 (q : ℚ) : String :=
  let n : ℤ := Int.floor (q * 10 + 1 / 2)
  toString (n / 10) ++ "." ++ toString (n % 10)

/-- `_read_text_snippet(path, size)`.  `readFile` models
`path.read_text(..., errors="ignore")` (`none` = the OSError caught at line
594); `binExtract` models the pdf/docx/ipynb branches, whose behaviour
depends on optional decoder packages and file bytes outside this model.
The size ceiling check (lines 555-557) precedes every read. -/
def read_text_snippet (readFile : SPath → Option String)
    (binExtract : SPath → Option String × Option String)
    (mb : ℚ) (p : SPath) (size : ℕ) : Option String × Option String :=
  let suffix := lowerStr (suffixOf (pathName p))
  if DataIndexer.max_file_size_bytes mb < size then
    (some (pathName p), some ("Skipped content (>" ++ fmt1 mb ++ " MB)"))
  else if suffix ∈ TEXT_EXTENSIONS ∨ suffix ∈ CODE_EXTENSIONS then
    match readFile p with
    | some text => (some (text.take MAX_SNIPPET_CHARS), none)
    | none => (none, some "Read error")
  else if suffix = ".pdf" ∨ suffix = ".docx" ∨ suffix = ".ipynb" then
    binExtract p
  else (none, some "Unsupported format")

end Extract

/-! ## C7: oversized files and filename-only snippets -/

/-- Concrete evaluation of the byte ceiling at 1 MB, used by the C7
counterexample and witness (`Int.floor` on `ℚ` does not reduce in the
kernel). -/
theorem clamp_one_bytes : DataIndexer.max_file_size_bytes (DataIndexer.clamp_mb 1) = 1048576 := by
  unfold DataIndexer.max_file_size_bytes DataIndexer.clamp_mb
  norm_num
  rfl

/-- **C7 counterexample.** An oversized candidate that is *already indexed
with a matching `(mtime, size)` snapshot* takes the unchanged branch
(line 263): `_read_text_snippet` is never called, no size skip is recorded
in that run, and the stored snippet keeps whatever body text a previous run
extracted (here `"old body text"`, e.g. extracted under a larger ceiling
before `update_policy` lowered it to 1 MB).  So the claim, which quantifies
over *every* oversized candidate, fails: this candidate's run records no
size skip and its stored snippet is body text, not the bare filename. -/
theorem c7_counterexample :
    DataIndexer.max_file_size_bytes (DataIndexer.clamp_mb 1) <
      (⟨5, 2097152⟩ : IndexStore.FStat).size ∧
    (Rebuild.rebuildModel (fun _ => some (⟨5, 2097152⟩ : IndexStore.FStat))
        (Extract.read_text_snippet (fun _ => some "body") (fun _ => (none, none))
          (DataIndexer.clamp_mb 1))
        (fun _ => false)
        [⟨["/", "data", "big.txt"], ⟨5, 2097152⟩, "old body text"⟩]
        [["/", "data", "big.txt"]]).processed = 1 ∧
    (Rebuild.rebuildModel (fun _ => some (⟨5, 2097152⟩ : IndexStore.FStat))
        (Extract.read_text_snippet (fun _ => some "body") (fun _ => (none, none))
          (DataIndexer.clamp_mb 1))
        (fun _ => false)
        [⟨["/", "data", "big.txt"], ⟨5, 2097152⟩, "old body text"⟩]
        [["/", "data", "big.txt"]]).cancelled = false ∧
    (Rebuild.rebuildModel (fun _ => some (⟨5, 2097152⟩ : IndexStore.FStat))
        (Extract.read_text_snippet (fun _ => some "body") (fun _ => (none, none))
          (DataIndexer.clamp_mb 1))
        (fun _ => false)
        [⟨["/", "data", "big.txt"], ⟨5, 2097152⟩, "old body text"⟩]
        [["/", "data", "big.txt"]]).skips = [] ∧
    (Rebuild.rebuildModel (fun _ => some (⟨5, 2097152⟩ : IndexStore.FStat))
        (Extract.read_text_snippet (fun _ => some "body") (fun _ => (none, none))
          (DataIndexer.clamp_mb 1))
        (fun _ => false)
        [⟨["/", "data", "big.txt"], ⟨5, 2097152⟩, "old body text"⟩]
        [["/", "data", "big.txt"]]).extracted = 0 ∧
    Rebuild.findRow
      (Rebuild.rebuildModel (fun _ => some (⟨5, 2097152⟩ : IndexStore.FStat))
        (Extract.read_text_snippet (fun _ => some "body") (fun _ => (none, none))
          (DataIndexer.clamp_mb 1))
        (fun _ => false)
        [⟨["/", "data", "big.txt"], ⟨5, 2097152⟩, "old body text"⟩]
        [["/", "data", "big.txt"]]).store ["/", "data", "big.txt"] =
      some ⟨["/", "data", "big.txt"], ⟨5, 2097152⟩, "old body text"⟩ ∧
    "old body text" ≠ pathName ["/", "data", "big.txt"] :=
  ⟨by rw [clamp_one_bytes]; decide, by decide, by decide, by decide, by decide,
   by decide, by decide⟩

/-- **C7 (amended).** For a candidate whose stat size strictly exceeds the
configured byte ceiling: extraction, *whenever it runs*, returns the bare
filename as snippet together with a note of the form
`Skipped content (>X MB)` (which names the size limit).  In a non-cancelled
rebuild, extraction runs for exactly the oversized candidates that are new
to the store or whose stored `(mtime, size)` snapshot differs from the
current stat: those end up indexed with the filename as their stored
snippet (no document body text) and the size note among the run's skip
diagnostics.  An oversized candidate whose snapshot matches is counted as
processed without re-extraction: that run records no size skip for it and
its previously stored snippet — possibly body text extracted under a
larger ceiling — is kept (see the counterexample). -/
theorem c7_oversize_indexed_by_name_only (readFile : SPath → Option String)
    (binExtract : SPath → Option String × Option String) (mbRaw : ℚ)
    (stat : SPath → Option IndexStore.FStat) (store0 : Rebuild.Store)
    (cands : List SPath) (p : SPath) (fs : IndexStore.FStat)
    (hsize : DataIndexer.max_file_size_bytes (DataIndexer.clamp_mb mbRaw) < fs.size)
    (hmem : p ∈ cands) (hstat : stat p = some fs)
    (hchanged : Rebuild.findRow store0 p = none ∨
      ∃ row, Rebuild.findRow store0 p = some row ∧ row.stat ≠ fs) :
    Extract.read_text_snippet readFile binExtract (DataIndexer.clamp_mb mbRaw) p fs.size =
      (some (pathName p),
       some ("Skipped content (>" ++ Extract.fmt1 (DataIndexer.clamp_mb mbRaw) ++ " MB)")) ∧
    (∃ s, ("Skipped content (>" ++ Extract.fmt1 (DataIndexer.clamp_mb mbRaw) ++ " MB)") =
      "Skipped content (>" ++ s ++ " MB)") ∧
    Rebuild.findRow
      (Rebuild.rebuildModel stat
        (Extract.read_text_snippet readFile binExtract (DataIndexer.clamp_mb mbRaw))
        (fun _ => false) store0 cands).store p =
      some ⟨p, fs, pathName p⟩ ∧
    (p, "Skipped content (>" ++ Extract.fmt1 (DataIndexer.clamp_mb mbRaw) ++ " MB)") ∈
      (Rebuild.rebuildModel stat
        (Extract.read_text_snippet readFile binExtract (DataIndexer.clamp_mb mbRaw))
        (fun _ => false) store0 cands).skips := by
  have hsnip : Extract.read_text_snippet readFile binExtract
      (DataIndexer.clamp_mb mbRaw) p fs.size =
      (some (pathName p),
       some ("Skipped content (>" ++ Extract.fmt1 (DataIndexer.clamp_mb mbRaw) ++ " MB)")) := by
    unfold Extract.read_text_snippet
    rw [if_pos hsize]
  have hsnippetOf : Rebuild.snippetOf
      (Extract.read_text_snippet readFile binExtract (DataIndexer.clamp_mb mbRaw))
      p fs.size = pathName p := by
    unfold Rebuild.snippetOf
    rw [hsnip]
  have hinv0 : Rebuild.StoreInv stat store0 (Rebuild.initState store0).seen
      (Rebuild.initState store0).store :=
    ⟨fun _ _ => rfl, fun q _ hq => absurd hq (List.not_mem_nil q), fun _ hq => Or.inl hq⟩
  obtain ⟨_, gseen, _⟩ := Rebuild.loop_inv stat
    (Extract.read_text_snippet readFile binExtract (DataIndexer.clamp_mb mbRaw))
    store0 cands.length cands 1 (Rebuild.initState store0) hinv0
  obtain ⟨hrow, hskip⟩ := Rebuild.loop_fresh stat
    (Extract.read_text_snippet readFile binExtract (DataIndexer.clamp_mb mbRaw))
    store0 cands.length cands 1 (Rebuild.initState store0) p fs hmem hstat hchanged
  set L := Rebuild.loop stat
    (Extract.read_text_snippet readFile binExtract (DataIndexer.clamp_mb mbRaw))
    (fun _ => false) store0 cands.length cands 1 (Rebuild.initState store0) with hL
  have hseen : p ∈ L.seen := (gseen p).mpr (Or.inr hmem)
  refine ⟨hsnip, ⟨Extract.fmt1 (DataIndexer.clamp_mb mbRaw), rfl⟩, ?_, ?_⟩
  · -- the record survives the stale-deletion pass: p was seen, hence not stale
    have hkeep : ∀ x ∈ L.store, decide (x.path = p) = true →
        decide (x.path ∉ (store0.map Rebuild.StoreRow.path).filter
          (fun q => decide (q ∉ L.seen))) = true := by
      intro x _ hpr
      simp only [decide_eq_true_eq] at hpr ⊢
      rw [hpr]
      intro hmem2
      have h2 := (List.mem_filter.mp hmem2).2
      simp only [decide_eq_true_eq] at h2
      exact h2 hseen
    have heq : Rebuild.findRow (L.store.filter (fun r => decide (r.path ∉
        (store0.map Rebuild.StoreRow.path).filter (fun q => decide (q ∉ L.seen))))) p =
        Rebuild.findRow L.store p :=
      Rebuild.find?_filter_of_imp _ _ L.store hkeep
    show Rebuild.findRow (L.store.filter (fun r => decide (r.path ∉
      (store0.map Rebuild.StoreRow.path).filter (fun q => decide (q ∉ L.seen))))) p = _
    rw [heq, hrow, hsnippetOf]
  · show (p, _) ∈ L.skips
    apply hskip
    rw [hsnip]

/-- Witness for the amended C7: with `max_file_size_mb = 1`, a 2 MB
(2097152-byte) `big.txt` new to the store is indexed with its bare
filename as snippet and a size-skip note. -/
theorem c7_oversize_indexed_by_name_only_witness :
    DataIndexer.max_file_size_bytes (DataIndexer.clamp_mb 1) <
      (⟨5, 2097152⟩ : IndexStore.FStat).size ∧
    (["/", "data", "big.txt"] : SPath) ∈ [(["/", "data", "big.txt"] : SPath)] ∧
    ((fun _ : SPath => some (⟨5, 2097152⟩ : IndexStore.FStat)) ["/", "data", "big.txt"] =
      some ⟨5, 2097152⟩) ∧
    (Rebuild.findRow [] ["/", "data", "big.txt"] = none ∨
      ∃ row, Rebuild.findRow [] ["/", "data", "big.txt"] = some row ∧
        row.stat ≠ (⟨5, 2097152⟩ : IndexStore.FStat)) ∧
    (Extract.read_text_snippet (fun _ => some "body text") (fun _ => (none, none))
        (DataIndexer.clamp_mb 1) ["/", "data", "big.txt"]
        (⟨5, 2097152⟩ : IndexStore.FStat).size =
      (some (pathName ["/", "data", "big.txt"]),
       some ("Skipped content (>" ++ Extract.fmt1 (DataIndexer.clamp_mb 1) ++ " MB)")) ∧
    (∃ s, ("Skipped content (>" ++ Extract.fmt1 (DataIndexer.clamp_mb 1) ++ " MB)") =
      "Skipped content (>" ++ s ++ " MB)") ∧
    Rebuild.findRow
      (Rebuild.rebuildModel (fun _ => some (⟨5, 2097152⟩ : IndexStore.FStat))
        (Extract.read_text_snippet (fun _ => some "body text") (fun _ => (none, none))
          (DataIndexer.clamp_mb 1))
        (fun _ => false) [] [["/", "data", "big.txt"]]).store ["/", "data", "big.txt"] =
      some ⟨["/", "data", "big.txt"], ⟨5, 2097152⟩, pathName ["/", "data", "big.txt"]⟩ ∧
    (["/", "data", "big.txt"],
      "Skipped content (>" ++ Extract.fmt1 (DataIndexer.clamp_mb 1) ++ " MB)") ∈
      (Rebuild.rebuildModel (fun _ => some (⟨5, 2097152⟩ : IndexStore.FStat))
        (Extract.read_text_snippet (fun _ => some "body text") (fun _ => (none, none))
          (DataIndexer.clamp_mb 1))
        (fun _ => false) [] [["/", "data", "big.txt"]]).skips) :=
  ⟨by rw [clamp_one_bytes]; decide, by decide, rfl, Or.inl (by decide),
   c7_oversize_indexed_by_name_only (fun _ => some "body text") (fun _ => (none, none)) 1
     (fun _ => some ⟨5, 2097152⟩) [] [["/", "data", "big.txt"]]
     ["/", "data", "big.txt"] ⟨5, 2097152⟩ (by rw [clamp_one_bytes]; decide) (by decide) rfl
     (Or.inl (by decide))⟩

/-! ## RankedSearch model (`DataIndexer.search`, lines 333-452)

The scoring uses `difflib.SequenceMatcher(None, a, b).ratio()`.  Both
operands here are short strings (a query and a file name), far below the
200-element threshold at which `autojunk` activates, so the junk sets are
empty and `b2j` holds every position of every character of `b`.  The
embedding below follows CPython's `difflib` line by line for that no-junk
case; the two `while` extension loops are modelled with fuel that is
provably sufficient (each step decreases `besti` or increases `bestsize`,
both bounded by the string lengths).

Python's float scores are modelled by explicit fractions (`Frac`) with a
positive denominator, compared by cross-multiplication — value semantics
identical to exact rational arithmetic, and fully kernel-computable.  (ℚ's
normalising arithmetic is avoided only because `Nat.gcd` does not reduce
definitionally; no score in the claims sits at a float-rounding
boundary.) -/

/-- An unnormalised rational: every constructor application in this
development keeps `den` positive, so the cross-multiplication comparisons
below agree with the rational values. -/
structure Frac where
  num : ℤ
  den : ℤ
deriving DecidableEq

namespace Frac

def ofInt (n : ℤ) : Frac := ⟨n, 1⟩

def add (a b : Frac) : Frac := ⟨a.num * b.den + b.num * a.den, a.den * b.den⟩

def sub (a b : Frac) : Frac := ⟨a.num * b.den - b.num * a.den, a.den * b.den⟩

def mul (a b : Frac) : Frac := ⟨a.num * b.num, a.den * b.den⟩

/-- Value comparison `a < b` (valid for positive denominators). -/
def qlt (a b : Frac) : Bool := decide (a.num * b.den < b.num * a.den)

/-- Value comparison `a ≤ b`. -/
def qle (a b : Frac) : Bool := decide (a.num * b.den ≤ b.num * a.den)

/-- Value equality `a == b`. -/
def qeq (a b : Frac) : Bool := decide (a.num * b.den = b.num * a.den)

/-- Python's `max` on two floats (value semantics). -/
def fmax (a b : Frac) : Frac := if qlt a b then b else a

/-- Division by a positive integer literal. -/
def divNat (a : Frac) (k : ℕ) : Frac := ⟨a.num, a.den * Int.ofNat k⟩

end Frac

namespace RankedSearch

/-- `(l.drop i).head?`: safe indexing. -/
def charAt (l : List Char) (i : ℕ) : Option Char := (l.drop i).head?

/-- `b2j[c]`: the ascending positions of `c` in `b` (no junk, no popular
elements for short strings). -/
def positionsOf (b : List Char) (c : Char) : List ℕ :=
  ((b.enum).filter (fun x => decide (x.2 = c))).map Prod.fst

/-- `j2len.get(j, 0)` over an association list. -/
def lookupD (m : List (ℕ × ℕ)) (j : ℕ) : ℕ :=
  match m.find? (fun x => decide (x.1 = j)) with
  | some x => x.2
  | none => 0

/-- The inner `for j in b2j[a[i]]` loop of `find_longest_match`:
`k = newj2len[j] = j2len.get(j-1, 0) + 1`, tracking the strictly best
`(besti, bestj, bestsize)`.  (`j2len.get(-1, 0)` is 0, hence the `j = 0`
guard; Python's `i-k+1` is `i+1-k`, which never underflows.) -/
def flmJ (j2len : List (ℕ × ℕ)) (i : ℕ) :
    List ℕ → List (ℕ × ℕ) → ℕ × ℕ × ℕ → List (ℕ × ℕ) × (ℕ × ℕ × ℕ)
  | [], newj2len, best => (newj2len, best)
  | j :: js, newj2len, best =>
      let k := (if j = 0 then 0 else lookupD j2len (j - 1)) + 1
      let best' := if best.2.2 < k then (i + 1 - k, j + 1 - k, k) else best
      flmJ j2len i js ((j, k) :: newj2len) best'

/-- The outer `for i in range(alo, ahi)` loop of `find_longest_match`. -/
def flmI (a b : List Char) (blo bhi : ℕ) :
    List ℕ → List (ℕ × ℕ) → ℕ × ℕ × ℕ → ℕ × ℕ × ℕ
  | [], _, best => best
  | i :: is, j2len, best =>
      let positions := (match charAt a i with
        | some c => positionsOf b c
        | none => []).filter (fun j => decide (blo ≤ j ∧ j < bhi))
      match flmJ j2len i positions [] best with
      | (newj2len, best') => flmI a b blo bhi is newj2len best'

/-- First extension `while` loop of `find_longest_match` (no junk): extend
the block downwards while the preceding characters match. -/
def extLow (a b : List Char) (alo blo : ℕ) : ℕ → ℕ × ℕ × ℕ → ℕ × ℕ × ℕ
  | 0, best => best
  | fuel + 1, (besti, bestj, bestsize) =>
      if alo < besti ∧ blo < bestj ∧
          charAt a (besti - 1) = charAt b (bestj - 1) then
        extLow a b alo blo fuel (besti - 1, bestj - 1, bestsize + 1)
      else (besti, bestj, bestsize)

/-- Second extension `while` loop: extend the block upwards. -/
def extHigh (a b : List Char) (ahi bhi : ℕ) : ℕ → ℕ × ℕ × ℕ → ℕ × ℕ × ℕ
  | 0, best => best
  | fuel + 1, (besti, bestj, bestsize) =>
      if besti + bestsize < ahi ∧ bestj + bestsize < bhi ∧
          charAt a (besti + bestsize) = charAt b (bestj + bestsize) then
        extHigh a b ahi bhi fuel (besti, bestj, bestsize + 1)
      else (besti, bestj, bestsize)

/-- `SequenceMatcher.find_longest_match(alo, ahi, blo, bhi)` with no junk
(the third and fourth junk-extension loops are no-ops). -/
def findLongestMatch (a b : List Char) (alo ahi blo bhi : ℕ) : ℕ × ℕ × ℕ :=
  let best := flmI a b blo bhi (List.range' alo (ahi - alo)) [] (alo, blo, 0)
  let best := extLow a b alo blo (a.length + 1) best
  extHigh a b ahi bhi (a.length + b.length + 1) best

/-- Total size of all matching blocks (`get_matching_blocks` recursion);
the fuel bounds the recursion depth, which shrinks the combined interval
width at every level, so `a.length + b.length + 1` never runs out. -/
def matchesSum (a b : List Char) : ℕ → ℕ → ℕ → ℕ → ℕ → ℕ
  | 0, _, _, _, _ => 0
  | fuel + 1, alo, ahi, blo, bhi =>
      match findLongestMatch a b alo ahi blo bhi with
      | (i, j, k) =>
        if k = 0 then 0
        else matchesSum a b fuel alo i blo j + k +
          matchesSum a b fuel (i + k) ahi (j + k) bhi

/-- `SequenceMatcher(None, a, b).ratio() = 2 M / (len(a) + len(b))`. -/
def ratioOf (a b : List Char) : Frac :=
  if a.length + b.length = 0 then Frac.ofInt 0
  else
    ⟨2 * Int.ofNat (matchesSum a b (a.length + b.length + 1) 0 a.length 0 b.length),
     Int.ofNat (a.length + b.length)⟩

/-- A character matched by the query-token pattern.  The source's regex is
`re.findall(r"[\\w]+", lower_query)`: inside a character class `\\` is a
literal backslash and `w` a literal letter, so tokens are maximal runs of
backslashes and `w`s — not word characters. -/
def isTokChar (c : Char) : Bool := c == '\\' || c == 'w'

def tokensAux : List Char → List Char → List String
  | [], cur => if cur.isEmpty then [] else [String.mk cur.reverse]
  | c :: cs, cur =>
      if isTokChar c then tokensAux cs (c :: cur)
      else if cur.isEmpty then tokensAux cs []
      else String.mk cur.reverse :: tokensAux cs []

/-- `re.findall(r"[\\w]+", s)`: maximal runs of `\` and `w`. -/
def tokensOf (s : String) : List String := tokensAux s.toList []

/-- Python's `needle in hay` on strings. -/
def strContains (hay needle : String) : Bool := decide (needle.toList <:+: hay.toList)

/-- Python's `s.startswith(pre)`. -/
def strHasPre (pre s : String) : Bool := decide (pre.toList <+: s.toList)

/-- `str.strip()` on the ASCII strings in play. -/
def listTrim (cs : List Char) : List Char :=
  ((cs.dropWhile Char.isWhitespace).reverse.dropWhile Char.isWhitespace).reverse

def strTrim (s : String) : String := String.mk (listTrim s.toList)

/-- Python's code-point-lexicographic `<` on strings. -/
def listLt : List Char → List Char → Bool
  | [], [] => false
  | [], _ :: _ => true
  | _ :: _, [] => false
  | a :: as, b :: bs => if a < b then true else if b < a then false else listLt as bs

def strLt (a b : String) : Bool := listLt a.toList b.toList

def strLe (a b : String) : Bool := !strLt b a

/-- A row of the `files` table as `search` reads it. -/
structure SearchRow where
  path : SPath
  mtime : Frac
  size : ℕ
deriving DecidableEq

/-- A search result.  The presentational `modified`, `modified_human` and
`size_human` fields are injective images of `mtime`/`size` and are
modelled by those two numbers. -/
structure SearchEntry where
  path : String
  name : String
  score : Frac
  snippet : String
  mtime : Frac
  size : ℕ
deriving DecidableEq

/-- The name-scoring tiers of lines 352-368: exact 150 / starts-with 110 /
substring 90; else for queries of length ≥ 3 a similarity ratio ≥ 0.6 adds
`ratio * 70`; each nonempty token contained in the filename adds 15. -/
def rawNameScore (lq : String) (tokens : List String) (filename : String) : Frac :=
  let base : Frac :=
    if filename = lq then Frac.ofInt 150
    else if strHasPre lq filename then Frac.ofInt 110
    else if strContains filename lq then Frac.ofInt 90
    else Frac.ofInt 0
  let base :=
    if Frac.qeq base (Frac.ofInt 0) ∧ 3 ≤ lq.length then
      let r := ratioOf lq.toList filename.toList
      if Frac.qle ⟨3, 5⟩ r then Frac.add base (Frac.mul r (Frac.ofInt 70)) else base
    else base
  Frac.add base (Frac.ofInt (15 * Int.ofNat (tokens.filter
    (fun t => !t.isEmpty && strContains filename t)).length))

/-- Lines 370-374: only rows with a positive raw name score receive the
recency bonus and depth penalty and enter `name_scores`. -/
def fullNameScore (now : Frac) (lq : String) (tokens : List String)
    (row : SearchRow) : Option Frac :=
  let filename := Extract.lowerStr (pathName row.path)
  let score := rawNameScore lq tokens filename
  if Frac.qlt (Frac.ofInt 0) score then
    let ageDays := Frac.fmax (Frac.ofInt 0) (Frac.divNat (Frac.sub now row.mtime) 86400)
    let recency := Frac.fmax (Frac.ofInt 5) (Frac.sub (Frac.ofInt 35) ageDays)
    let depth := Frac.fmax (Frac.ofInt 0) ⟨3 * Int.ofNat row.path.length, 2⟩
    some (Frac.sub (Frac.add score recency) depth)
  else none

/-- The content-scoring rows, lines 376-413.  On the full-text backend the
SQL `MATCH ... ORDER BY rank LIMIT 2*limit` result is the `ftsRows`
parameter `(path, bm25 rank, preview)` — bm25 itself lives inside SQLite —
and each row scores `max(0, 120 - rank)`; on the fallback backend a
case-insensitive substring scan of the stored contents scores a flat 60
with a 400-character preview. -/
def contentScored (ftsAvailable : Bool) (ftsRows : List (SPath × Frac × String))
    (contents : List (SPath × String)) (lq : String) (limit2 : ℕ) :
    List (SPath × Frac × String) :=
  if ftsAvailable then
    (ftsRows.take limit2).map
      (fun x => (x.1, Frac.fmax (Frac.ofInt 0) (Frac.sub (Frac.ofInt 120) x.2.1), x.2.2))
  else
    ((contents.filter (fun pc => strContains (Extract.lowerStr pc.2) lq)).take
      limit2).map (fun pc => (pc.1, Frac.ofInt 60, String.mk (pc.2.toList.take 400)))

/-- Python-dict assignment `d[k] = v`: replace in place or append. -/
def dictInsertC (m : List (SPath × Frac × String)) (k : SPath) (v : Frac × String) :
    List (SPath × Frac × String) :=
  if m.any (fun x => decide (x.1 = k)) then
    m.map (fun x => if x.1 = k then (k, v) else x)
  else m ++ [(k, v)]

/-- `defaultdict(float)` with `d[k] += v`. -/
def dictAddQ (m : List (SPath × Frac)) (k : SPath) (v : Frac) : List (SPath × Frac) :=
  if m.any (fun x => decide (x.1 = k)) then
    m.map (fun x => if x.1 = k then (x.1, Frac.add x.2 v) else x)
  else m ++ [(k, v)]

/-- The fresh `merged[path]` entry of lines 418-428. -/
def mkEntry (row : SearchRow) : SearchEntry :=
  { path := PathPolicies.render row.path, name := pathName row.path,
    score := Frac.ofInt 0, snippet := "", mtime := row.mtime, size := row.size }

def dictInsertE (m : List (SPath × SearchEntry)) (k : SPath) (v : SearchEntry) :
    List (SPath × SearchEntry) :=
  if m.any (fun x => decide (x.1 = k)) then
    m.map (fun x => if x.1 = k then (k, v) else x)
  else m ++ [(k, v)]

/-- Lines 430-434: add a name score and set the filename-match snippet if
none is present; absent paths are ignored. -/
def applyName (q : String) (m : List (SPath × SearchEntry)) (kv : SPath × Frac) :
    List (SPath × SearchEntry) :=
  m.map (fun x => if x.1 = kv.1 then
    (x.1, { x.2 with
              score := Frac.add x.2.score kv.2,
              snippet := if x.2.snippet = "" then
                  "Filename match for '" ++ q ++ "'"
                else x.2.snippet })
    else x)

/-- Lines 436-443: add a content score; a nonempty stripped preview
replaces the snippet, otherwise a placeholder fills an empty snippet. -/
def applyContent (m : List (SPath × SearchEntry)) (kv : SPath × Frac × String) :
    List (SPath × SearchEntry) :=
  m.map (fun x => if x.1 = kv.1 then
    (x.1, { x.2 with
              score := Frac.add x.2.score kv.2.1,
              snippet := if strTrim kv.2.2 ≠ "" then strTrim kv.2.2
                else if x.2.snippet = "" then "Content match"
                else x.2.snippet })
    else x)

/-- `sorted`'s key `(-score, name, path)` as a boolean total preorder. -/
def entryLE (a b : SearchEntry) : Bool :=
  if Frac.qeq a.score b.score then
    if a.name = b.name then strLe a.path b.path
    else strLt a.name b.name
  else Frac.qlt b.score a.score

/-- Stable insertion: an element goes after every element ≤ it, so equal
keys keep their input order, exactly as Python's stable `sorted`. -/
def insertLE (x : SearchEntry) : List SearchEntry → List SearchEntry
  | [] => [x]
  | y :: ys => if entryLE y x then y :: insertLE x ys else x :: y :: ys

def stableSort (l : List SearchEntry) : List SearchEntry :=
  l.foldl (fun acc x => insertLE x acc) []

/-- `DataIndexer.search(query, limit)` (lines 333-452) over the modelled
store: empty stripped query returns `[]`; otherwise name scores and
content scores are merged per file, every file row gets an entry (score 0
when nothing matched), entries are sorted by descending score with
name-then-path tie-breaks, and the list is truncated to `max(1, limit)`. -/
def searchModel (ftsAvailable : Bool) (ftsRows : List (SPath × Frac × String))
    (contents : List (SPath × String)) (rows : List SearchRow) (now : Frac)
    (query : String) (limit : ℕ) : List SearchEntry :=
  let q := strTrim query
  if q = "" then []
  else
    let limit' := max 1 limit
    let lq := Extract.lowerStr q
    let tokens := tokensOf lq
    let nameScores : List (SPath × Frac) :=
      rows.foldl (fun m row =>
        match fullNameScore now lq tokens row with
        | some s => dictAddQ m row.path s
        | none => m) []
    let cScores : List (SPath × Frac × String) :=
      if tokens.isEmpty then []
      else (contentScored ftsAvailable ftsRows contents lq (limit' * 2)).foldl
        (fun m x => dictInsertC m x.1 x.2) []
    let merged0 : List (SPath × SearchEntry) :=
      rows.foldl (fun m row => dictInsertE m row.path (mkEntry row)) []
    let merged1 := nameScores.foldl (applyName q) merged0
    let merged2 := cScores.foldl applyContent merged1
    (stableSort (merged2.map Prod.snd)).take limit'

end RankedSearch

namespace RankedSearch

theorem length_insertLE (x : SearchEntry) :
    ∀ l : List SearchEntry, (insertLE x l).length = l.length + 1 := by
  intro l
  induction l with
  | nil => rfl
  | cons y ys ih =>
    unfold insertLE
    by_cases h : entryLE y x = true
    · rw [if_pos h]
      simp [ih]
    · rw [if_neg h]
      simp

theorem length_sortFold :
    ∀ (l acc : List SearchEntry),
      (l.foldl (fun a x => insertLE x a) acc).length = acc.length + l.length := by
  intro l
  induction l with
  | nil => intro acc; simp
  | cons x xs ih =>
    intro acc
    rw [List.foldl_cons, ih (insertLE x acc), length_insertLE]
    simp only [List.length_cons]
    omega

theorem length_stableSort (l : List SearchEntry) :
    (stableSort l).length = l.length := by
  unfold stableSort
  rw [length_sortFold]
  simp

theorem length_applyName (q : String) (m : List (SPath × SearchEntry))
    (kv : SPath × Frac) : (applyName q m kv).length = m.length := by
  unfold applyName
  rw [List.length_map]

theorem length_applyName_fold (q : String) :
    ∀ (kvs : List (SPath × Frac)) (m : List (SPath × SearchEntry)),
      (kvs.foldl (applyName q) m).length = m.length := by
  intro kvs
  induction kvs with
  | nil => intro m; rfl
  | cons kv rest ih =>
    intro m
    rw [List.foldl_cons, ih (applyName q m kv), length_applyName]

theorem length_applyContent (m : List (SPath × SearchEntry))
    (kv : SPath × Frac × String) : (applyContent m kv).length = m.length := by
  unfold applyContent
  rw [List.length_map]

theorem length_applyContent_fold :
    ∀ (kvs : List (SPath × Frac × String)) (m : List (SPath × SearchEntry)),
      (kvs.foldl applyContent m).length = m.length := by
  intro kvs
  induction kvs with
  | nil => intro m; rfl
  | cons kv rest ih =>
    intro m
    rw [List.foldl_cons, ih (applyContent m kv), length_applyContent]

theorem dictInsertE_fresh (m : List (SPath × SearchEntry)) (k : SPath)
    (v : SearchEntry) (h : k ∉ m.map Prod.fst) :
    dictInsertE m k v = m ++ [(k, v)] := by
  unfold dictInsertE
  rw [if_neg]
  intro hc
  obtain ⟨x, hx, hxk⟩ := List.any_eq_true.mp hc
  simp only [decide_eq_true_eq] at hxk
  exact h (List.mem_map.mpr ⟨x, hx, hxk⟩)

theorem merged0_length :
    ∀ (rows : List SearchRow) (m : List (SPath × SearchEntry)),
      (∀ p ∈ rows.map SearchRow.path, p ∉ m.map Prod.fst) →
      (rows.map SearchRow.path).Nodup →
      (rows.foldl (fun m row => dictInsertE m row.path (mkEntry row)) m).length =
        m.length + rows.length := by
  intro rows
  induction rows with
  | nil => intro m _ _; simp
  | cons row rest ih =>
    intro m hfresh hnd
    rw [List.foldl_cons,
        dictInsertE_fresh m row.path (mkEntry row)
          (hfresh row.path (by simp))]
    have hnd' : (rest.map SearchRow.path).Nodup := by
      simp only [List.map_cons, List.nodup_cons] at hnd
      exact hnd.2
    have hhead : row.path ∉ rest.map SearchRow.path := by
      simp only [List.map_cons, List.nodup_cons] at hnd
      exact hnd.1
    rw [ih (m ++ [(row.path, mkEntry row)]) ?_ hnd']
    · simp only [List.length_append, List.length_cons, List.length_nil]
      omega
    · intro p hp
      simp only [List.map_append, List.mem_append, List.map_cons, List.map_nil,
        List.mem_singleton]
      rintro (hc | hc)
      · exact hfresh p (List.mem_cons_of_mem _ hp) hc
      · rw [hc] at hp
        exact hhead hp

end RankedSearch

/-! ## C2: zero-score files are not dropped -/

/-- **C2 counterexample.** Fallback backend, one indexed file `a.txt`,
query `"zzz"`: no name tier matches, the similarity ratio is 0, the token
list is empty (so no content scoring runs), yet `search` returns the file —
with score 0, not a strictly positive one. -/
theorem c2_counterexample :
    (RankedSearch.searchModel false [] [(["/", "a.txt"], "hello")]
      [⟨["/", "a.txt"], ⟨0, 1⟩, 5⟩] ⟨0, 1⟩ "zzz" 20).map
        (fun e => e.score.num) = [0] ∧
    (RankedSearch.searchModel false [] [(["/", "a.txt"], "hello")]
      [⟨["/", "a.txt"], ⟨0, 1⟩, 5⟩] ⟨0, 1⟩ "zzz" 20).length = 1 := by
  constructor <;> decide

/-- **C2 (amended).** `search` never drops zero-score files: for every
non-empty (stripped) query over an index with distinct paths, the result is
all indexed files — sorted by descending merged score with deterministic
tie-breaks — truncated to `max(1, limit)`, so its length is
`min (max 1 limit) (number of files)` regardless of scores. -/
theorem c2_zero_scores_not_dropped (fts : Bool)
    (ftsRows : List (SPath × Frac × String)) (contents : List (SPath × String))
    (rows : List RankedSearch.SearchRow) (now : Frac) (query : String) (limit : ℕ)
    (hq : RankedSearch.strTrim query ≠ "")
    (hnd : (rows.map RankedSearch.SearchRow.path).Nodup) :
    (RankedSearch.searchModel fts ftsRows contents rows now query limit).length =
      min (max 1 limit) rows.length := by
  simp only [RankedSearch.searchModel, if_neg hq]
  rw [List.length_take, RankedSearch.length_stableSort, List.length_map,
      RankedSearch.length_applyContent_fold, RankedSearch.length_applyName_fold,
      RankedSearch.merged0_length rows [] (by simp) hnd]
  simp

/-- Witness for the amended C2: one indexed zero-scoring file, query
`"zzz"`, limit 20 — the result length is `min 20 1 = 1`. -/
theorem c2_zero_scores_not_dropped_witness :
    RankedSearch.strTrim "zzz" ≠ "" ∧
    (([⟨["/", "a.txt"], ⟨0, 1⟩, 5⟩] :
        List RankedSearch.SearchRow).map RankedSearch.SearchRow.path).Nodup ∧
    (RankedSearch.searchModel false [] [(["/", "a.txt"], "hello")]
      [⟨["/", "a.txt"], ⟨0, 1⟩, 5⟩] ⟨0, 1⟩ "zzz" 20).length =
      min (max 1 20) ([⟨["/", "a.txt"], ⟨0, 1⟩, 5⟩] :
        List RankedSearch.SearchRow).length :=
  ⟨by decide, by decide,
   c2_zero_scores_not_dropped false [] [(["/", "a.txt"], "hello")]
     [⟨["/", "a.txt"], ⟨0, 1⟩, 5⟩] ⟨0, 1⟩ "zzz" 20 (by decide) (by decide)⟩

namespace RankedSearch

/-- When the (backslash-and-`w`) token list of the query is empty, the
content-scoring stage is skipped entirely, so the result does not depend on
the backend or on what the full-text query would have returned. -/
theorem searchModel_of_tokens_nil (fts : Bool) (ftsRows : List (SPath × Frac × String))
    (contents : List (SPath × String)) (rows : List SearchRow) (now : Frac)
    (query : String) (limit : ℕ)
    (h : tokensOf (Extract.lowerStr (strTrim query)) = []) :
    searchModel fts ftsRows contents rows now query limit =
      searchModel false [] contents rows now query limit := by
  by_cases hq : strTrim query = ""
  · simp only [searchModel, if_pos hq]
  · simp only [searchModel, if_neg hq, h]
    rfl

end RankedSearch

/-! ## C9: the two-file revenue scenario -/

/-- **C9.**  Index of exactly `notes.md` (content "quarterly revenue
report") and `notes2.md` (content "grocery list"): `search("revenue")`
returns `notes.md` strictly above `notes2.md`, on either backend and
whatever the full-text engine would report.  (Both merged scores are 0 —
the token regex `[\\w]+` yields no tokens for "revenue", so content
scoring never runs, no name tier fires, and the ordering comes from the
deterministic filename tie-break.) -/
theorem c9_revenue_ranks_notes_first (fts : Bool)
    (ftsRows : List (SPath × Frac × String)) :
    (RankedSearch.searchModel fts ftsRows
      [(["/", "data", "notes.md"], "quarterly revenue report"),
       (["/", "data", "notes2.md"], "grocery list")]
      [⟨["/", "data", "notes.md"], ⟨100, 1⟩, 24⟩,
       ⟨["/", "data", "notes2.md"], ⟨200, 1⟩, 12⟩]
      ⟨1000, 1⟩ "revenue" 20).map RankedSearch.SearchEntry.path =
    ["/data/notes.md", "/data/notes2.md"] := by
  rw [RankedSearch.searchModel_of_tokens_nil fts ftsRows _ _ _ _ _ (by decide)]
  decide
